import Mathlib

/-!
Verification of the cache + batch-recommendation core of otaku-chart-maker.

The definitions below are a shallow embedding of the Go source:
  * `src/internal/api/recommend.go` — query grouping and the deterministic
    allocator (`makeRecommendKey`, `Recommend`);
  * `src/internal/api/bangumi.go` / `src/internal/api/vndb.go` — the two
    TTL caches (`cachedPost`, `pruneExpiredLocked`, `evictOverflowLocked`).

Go `time.Time` instants are modelled as `Int` nanoseconds (with `Before`
becoming `<`), Go `[]byte` payloads as `List UInt8`, and the Go
`map[string]cacheEntry` as an association list with unique keys whose list
order stands in for the map's iteration order. Upstream HTTP calls are
modelled as oracle arguments (`Option`/`Except` valued functions).
-/

namespace OtakuChart

/-! ## Data model of recommend.go -/

/-- `BrowseResult` (bangumi.go:185-192). The `score float64` field is
omitted: it is never read by the grouping, fetching or allocation code
verified here. -/
structure BrowseResult where
  ID : Int
  name : String
  nameCN : String
  cover : String
  typeLabel : String
deriving DecidableEq, Repr

/-- `RecommendCellSpec` (recommend.go:11-17). -/
structure RecommendCellSpec where
  label : String
  tags : List String
  sort : String
  subjectType : String
  offset : Int
deriving DecidableEq, Repr

/-- `RecommendRequest` (recommend.go:20-23). -/
structure RecommendRequest where
  cells : List RecommendCellSpec
  excludeIDs : List Int
deriving DecidableEq, Repr

/-- `RecommendCellResult` (recommend.go:26-30). A `nil` item pointer is
`none`. -/
structure RecommendCellResult where
  label : String
  item : Option BrowseResult
  found : Bool
deriving DecidableEq, Repr

/-- `RecommendResponse` (recommend.go:33-35). -/
structure RecommendResponse where
  results : List RecommendCellResult
deriving DecidableEq, Repr

/-- `recommendQueryKey` (recommend.go:41-45). -/
structure recommendQueryKey where
  tags : String
  sortBy : String
  subjectType : String
deriving DecidableEq, Repr

/-- Lexicographic comparison of character lists: Go compares strings
byte-wise, which on UTF-8 encodings coincides with the code-point
lexicographic order modelled here. -/
def charListLe : List Char → List Char → Bool
  | [], _ => true
  | _ :: _, [] => false
  | a :: as, b :: bs => if a < b then true else if b < a then false else charListLe as bs

/-- Go's `s1 <= s2` on strings. -/
def strLe (a b : String) : Bool :=
  charListLe a.data b.data

/-- The ordering relation `sort.Strings` sorts by, as a `Prop`. -/
def StrLeR (a b : String) : Prop :=
  strLe a b = true

instance strLeR_decidable : DecidableRel StrLeR := fun a b => instDecidableEqBool (strLe a b) true

instance strLeR_isTrans : IsTrans String StrLeR where
  trans := by
    have key : ∀ as bs cs : List Char,
        charListLe as bs = true → charListLe bs cs = true → charListLe as cs = true := by
      intro as
      induction as with
      | nil => intro bs cs _ _; rfl
      | cons a as ih =>
        intro bs cs hab hbc
        cases bs with
        | nil => simp [charListLe] at hab
        | cons b bs =>
          cases cs with
          | nil => simp [charListLe] at hbc
          | cons c cs =>
            simp only [charListLe] at hab hbc ⊢
            by_cases h1 : a < b
            · by_cases h2 : b < c
              · simp [lt_trans h1 h2]
              · by_cases h3 : c < b
                · simp [h2, h3] at hbc
                · have hbceq : b = c := le_antisymm (not_lt.mp h3) (not_lt.mp h2)
                  subst hbceq
                  simp [h1]
            · by_cases h4 : b < a
              · simp [h1, h4] at hab
              · have habeq : a = b := le_antisymm (not_lt.mp h4) (not_lt.mp h1)
                subst habeq
                by_cases h2 : a < c
                · simp [h2]
                · by_cases h3 : c < a
                  · simp [h2, h3] at hbc
                  · have heq : a = c := le_antisymm (not_lt.mp h3) (not_lt.mp h2)
                    subst heq
                    simp only [h1, if_neg h1, if_false] at hab hbc ⊢
                    exact ih _ _ hab hbc
    intro a b c hab hbc
    exact key a.data b.data c.data hab hbc

instance strLeR_isTotal : IsTotal String StrLeR where
  total := by
    have key : ∀ as bs : List Char, charListLe as bs = true ∨ charListLe bs as = true := by
      intro as
      induction as with
      | nil => intro bs; left; rfl
      | cons a as ih =>
        intro bs
        cases bs with
        | nil => right; rfl
        | cons b bs =>
          simp only [charListLe]
          rcases lt_trichotomy a b with h | h | h
          · left; simp [h]
          · subst h
            rcases ih bs with h2 | h2
            · left; simp [h2]
            · right; simp [h2]
          · right; simp [h]
    intro a b
    exact key a.data b.data

instance strLeR_isAntisymm : IsAntisymm String StrLeR where
  antisymm := by
    have key : ∀ as bs : List Char,
        charListLe as bs = true → charListLe bs as = true → as = bs := by
      intro as
      induction as with
      | nil =>
        intro bs h1 h2
        cases bs with
        | nil => rfl
        | cons b bs => simp [charListLe] at h2
      | cons a as ih =>
        intro bs h1 h2
        cases bs with
        | nil => simp [charListLe] at h1
        | cons b bs =>
          simp only [charListLe] at h1 h2
          by_cases hlt : a < b
          · simp [hlt, lt_asymm hlt] at h2
          · by_cases hgt : b < a
            · simp [hlt, hgt] at h1
            · have heq : a = b := le_antisymm (not_lt.mp hgt) (not_lt.mp hlt)
              subst heq
              simp only [lt_irrefl, if_neg, if_false] at h1 h2
              rw [ih bs h1 h2]
    intro a b h1 h2
    exact String.ext (key a.data b.data h1 h2)

/-- `sort.Strings` on a copied slice (recommend.go:50-52): the tag list
sorted ascending in the lexicographic string order. Any correct sort
computes the same list (the sorted permutation of a list is unique for a
total antisymmetric order), so Go's pattern-defeating quicksort is
modelled by insertion sort. -/
def sortStrings (l : List String) : List String :=
  l.insertionSort StrLeR

/-- `makeRecommendKey` (recommend.go:49-62): sort the tags, default the
subject type to `"anime"` when both the tag list and the explicit type are
empty, and join the sorted tags with the `"\x00"` separator. -/
def makeRecommendKey (spec : RecommendCellSpec) : recommendQueryKey :=
  let sorted := sortStrings spec.tags
  let subjectType := if spec.tags.length = 0 ∧ spec.subjectType = "" then "anime" else spec.subjectType
  { tags := String.intercalate "\x00" sorted
    sortBy := spec.sort
    subjectType := subjectType }

/-! ## The allocator (recommend.go:131-162)

The fetch phase (recommend.go:87-129) issues one `Browse` call per distinct
group key and stores `resp.Results` in `pool[key]` only when the call
succeeded with a non-nil slice. We model the collected pool as an oracle
`pool : recommendQueryKey → Option (List BrowseResult)`: `none` is a key
absent from the map (failed call, or nil result slice), `some items` a
present entry. Since exactly one call is made per key, any concrete
execution of the Go code is one such oracle. -/

/-- The inner scan of one cell's pool (recommend.go:146-161): walk `items`
in order, pass over IDs already in `used` without counting them, count the
first `offset` surviving items into `skipped`, and return the next
survivor. -/
def findUnused (used : List Int) (offset : Int) : Int → List BrowseResult → Option BrowseResult
  | _, [] => none
  | skipped, item :: rest =>
    if item.ID ∈ used then findUnused used offset skipped rest
    else if skipped < offset then findUnused used offset (skipped + 1) rest
    else some item

/-- The allocation loop (recommend.go:137-162): one result per spec in
input order; a cell whose group key is absent from the pool map, or has an
empty pool, or whose scan exhausts the pool, keeps `item = none`,
`found = false`; an assigned cell's item ID is added to the exclusion set
before the next spec is processed. -/
def allocateCells (pool : recommendQueryKey → Option (List BrowseResult)) : List Int → List RecommendCellSpec → List RecommendCellResult
  | _, [] => []
  | used, spec :: rest =>
    let noRes : RecommendCellResult := { label := spec.label, item := none, found := false }
    match pool (makeRecommendKey spec) with
    | none => noRes :: allocateCells pool used rest
    | some items =>
      if items.isEmpty then noRes :: allocateCells pool used rest
      else
        match findUnused used spec.offset 0 items with
        | none => noRes :: allocateCells pool used rest
        | some item => { label := spec.label, item := some item, found := true } :: allocateCells pool (item.ID :: used) rest

/-- The result list of `Recommend` (recommend.go:131-162): the exclusion
set is seeded from `req.excludeIDs` (recommend.go:132-135) and the cells
are allocated in input order. -/
def recommendResults (pool : recommendQueryKey → Option (List BrowseResult)) (req : RecommendRequest) : List RecommendCellResult :=
  allocateCells pool req.excludeIDs req.cells

/-- The distinct group keys for which `Recommend` issues an upstream
`Browse` call: none at all on the empty-cells early return
(recommend.go:67-69), otherwise one per distinct key of the grouping map
(recommend.go:76-85, one goroutine per group at recommend.go:96-120). -/
def recommendFetchedKeys (req : RecommendRequest) : List recommendQueryKey :=
  if req.cells = [] then [] else (req.cells.map makeRecommendKey).eraseDups

/-- `Client.Recommend` (recommend.go:66-165) with the collected pool map
abstracted as the oracle `pool`. The Go function's `error` return is
always `nil`, so the embedding always produces `.ok`. -/
def Recommend (pool : recommendQueryKey → Option (List BrowseResult)) (req : RecommendRequest) : Except String RecommendResponse :=
  if req.cells = [] then .ok { results := [] }
  else .ok { results := recommendResults pool req }

/-- The item identifiers actually assigned (cells with an attached item),
in output order. -/
def assignedIDs (rs : List RecommendCellResult) : List Int :=
  rs.filterMap (fun r => r.item.map (fun it => it.ID))

/-! ## Data model of the two response caches (bangumi.go, vndb.go)

Both clients keep a `map[string]cacheEntry` guarded by a mutex. The map is
modelled as an association list with unique keys; its list order stands in
for the map's iteration order (the properties proved below do not depend on
which entry a Go map iteration visits first among ties). `time.Time` is
modelled as `Int` nanoseconds, `t1.Before(t2)` as `t1 < t2`. -/

/-- Go `[]byte`. -/
abbrev Payload := List UInt8

/-- `cacheEntry` (bangumi.go:91-95) and `vndbCacheEntry` (vndb.go:43-47),
which are field-for-field identical. -/
structure cacheEntry where
  data : Payload
  expire : Int
  added : Int
deriving DecidableEq, Repr

/-- The cache map of one client. -/
abbrev CacheMap := List (String × cacheEntry)

/-- `cacheTTL = 5 * time.Minute` (bangumi.go:26), in nanoseconds. -/
def cacheTTL : Int := 300000000000

/-- `cacheMaxEntries = 800` (bangumi.go:28). -/
def cacheMaxEntries : Nat := 800

/-- `vndbCacheTTL = 5 * time.Minute` (vndb.go:26). -/
def vndbCacheTTL : Int := 300000000000

/-- `vndbCacheMaxEntries = 800` (vndb.go:28). -/
def vndbCacheMaxEntries : Nat := 800

/-- Go map read `entry, ok := c.cache[key]`. -/
def mapGet (m : CacheMap) (k : String) : Option cacheEntry :=
  (m.find? (fun p => p.1 == k)).map (fun p => p.2)

/-- Go map write `c.cache[key] = entry`: overwrite in place, or append a
fresh key. -/
def mapInsert (m : CacheMap) (k : String) (v : cacheEntry) : CacheMap :=
  if (m.find? (fun p => p.1 == k)).isSome then
    m.map (fun p => if p.1 == k then (k, v) else p)
  else m ++ [(k, v)]

/-- Go `delete(c.cache, key)`. -/
def mapErase (m : CacheMap) (k : String) : CacheMap :=
  m.filter (fun p => !(p.1 == k))

/-- `pruneExpiredLocked` (bangumi.go:467-473, vndb.go:411-417): delete
every entry with `!now.Before(entry.expire)`. -/
def pruneExpired (m : CacheMap) (now : Int) : CacheMap :=
  m.filter (fun p => decide (now < p.2.expire))

/-- The inner scan of bangumi's `evictOverflowLocked` (bangumi.go:478-487):
one pass over the map remembering the first entry carrying the strictly
smallest `added` so far (`!found || entry.added.Before(oldestAt)`). -/
def findOldestAux : Option (String × Int) → CacheMap → Option (String × Int)
  | acc, [] => acc
  | none, p :: rest => findOldestAux (some (p.1, p.2.added)) rest
  | some (k, a), p :: rest =>
    if p.2.added < a then findOldestAux (some (p.1, p.2.added)) rest
    else findOldestAux (some (k, a)) rest

/-- The oldest-entry key bangumi's eviction loop removes next. -/
def findOldest (m : CacheMap) : Option String :=
  (findOldestAux none m).map (fun p => p.1)

/-- The `for len(c.cache) > cacheMaxEntries` loop of bangumi's
`evictOverflowLocked` (bangumi.go:476-493), with an explicit fuel bound.
Each iteration deletes one present key, so `m.length` iterations always
suffice: the fuel never cuts the loop short. -/
def bgmEvictLoop : Nat → CacheMap → CacheMap
  | 0, m => m
  | fuel + 1, m =>
    if m.length ≤ cacheMaxEntries then m
    else
      match findOldest m with
      | none => m
      | some k => bgmEvictLoop fuel (mapErase m k)

/-- bangumi `evictOverflowLocked` (bangumi.go:476-493). -/
def bgmEvictOverflow (m : CacheMap) : CacheMap :=
  bgmEvictLoop m.length m

/-- The `newest` index scan of vndb's `evictOverflowLocked`
(vndb.go:436-441): the first index among `victims` holding the largest
`added` (`victims[vi].added.After(victims[newest].added)`). -/
def newestScan : List (String × Int) → Nat → Nat × Int → Nat × Int
  | [], _, best => best
  | v :: rest, i, best =>
    if best.2 < v.2 then newestScan rest (i + 1) (i, v.2)
    else newestScan rest (i + 1) best

/-- One step of vndb's victim selection (vndb.go:429-449): append while
fewer than `excess` victims are collected, otherwise replace the newest
victim (first index with the largest `added`) when the scanned entry is
strictly older. -/
def updateVictims (excess : Nat) (victims : List (String × Int)) (k : String) (added : Int) :
    List (String × Int) :=
  if victims.length < excess then victims ++ [(k, added)]
  else
    match victims with
    | [] => victims
    | w :: ws =>
      if added < (newestScan ws 1 (0, w.2)).2 then
        (w :: ws).set (newestScan ws 1 (0, w.2)).1 (k, added)
      else w :: ws

/-- vndb's batch victim selection (vndb.go:425-449). -/
def vndbSelectVictims (excess : Nat) (m : CacheMap) : List (String × Int) :=
  m.foldl (fun vs p => updateVictims excess vs p.1 p.2.added) []

/-- vndb `evictOverflowLocked` (vndb.go:420-453): when the entry count
exceeds the cap, select `excess` victims in one pass and delete them. -/
def vndbEvictOverflow (m : CacheMap) : CacheMap :=
  if m.length ≤ vndbCacheMaxEntries then m
  else (vndbSelectVictims (m.length - vndbCacheMaxEntries) m).foldl
    (fun acc v => mapErase acc v.1) m

/-- The lookup phase of `cachedPost` (bangumi.go:428-437 and vndb.go:320-330,
textually identical): a present unexpired entry is a hit returning its
payload; a present expired entry is deleted and the lookup misses; an
absent key misses without touching the map. -/
def cacheGet (m : CacheMap) (k : String) (now : Int) : Option Payload × CacheMap :=
  match mapGet m k with
  | some entry => if now < entry.expire then (some entry.data, m) else (none, mapErase m k)
  | none => (none, m)

/-- The store phase of bangumi's `cachedPost` (bangumi.go:445-450): insert
the fresh entry with `expire = cachedAt + cacheTTL`, `added = cachedAt`,
then prune and evict. -/
def bgmStore (m : CacheMap) (k : String) (result : Payload) (cachedAt : Int) : CacheMap :=
  bgmEvictOverflow (pruneExpired
    (mapInsert m k { data := result, expire := cachedAt + cacheTTL, added := cachedAt }) cachedAt)

/-- The store phase of vndb's `cachedPost` (vndb.go:337-342). -/
def vndbStore (m : CacheMap) (k : String) (result : Payload) (cachedAt : Int) : CacheMap :=
  vndbEvictOverflow (pruneExpired
    (mapInsert m k { data := result, expire := cachedAt + vndbCacheTTL, added := cachedAt }) cachedAt)

/-- bangumi `cachedPost` (bangumi.go:419-453). The upstream `bgmPost` call
is the oracle argument `upstream`; `now` and `cachedAt` are the two
`time.Now()` readings. The returned `Bool` records whether the upstream
call was performed (false exactly on a cache hit). -/
def bgmCachedPost (m : CacheMap) (k : String) (now : Int) (upstream : Except String Payload)
    (cachedAt : Int) : Except String Payload × CacheMap × Bool :=
  match cacheGet m k now with
  | (some data, m2) => (.ok data, m2, false)
  | (none, m2) =>
    match upstream with
    | .error e => (.error e, m2, true)
    | .ok result => (.ok result, bgmStore m2 k result cachedAt, true)

/-- vndb `cachedPost` (vndb.go:313-345), same shape as bangumi's. -/
def vndbCachedPost (m : CacheMap) (k : String) (now : Int) (upstream : Except String Payload)
    (cachedAt : Int) : Except String Payload × CacheMap × Bool :=
  match cacheGet m k now with
  | (some data, m2) => (.ok data, m2, false)
  | (none, m2) =>
    match upstream with
    | .error e => (.error e, m2, true)
    | .ok result => (.ok result, vndbStore m2 k result cachedAt, true)

/-- A sequence of successful `cachedPost` calls against the bangumi cache:
each element is (fingerprint, upstream payload, time of the call). -/
def bgmRunPosts (ps : List (String × Payload × Int)) (m : CacheMap) : CacheMap :=
  ps.foldl (fun acc p => (bgmCachedPost acc p.1 p.2.2 (.ok p.2.1) p.2.2).2.1) m

/-- The same sequence against the vndb cache. -/
def vndbRunPosts (ps : List (String × Payload × Int)) (m : CacheMap) : CacheMap :=
  ps.foldl (fun acc p => (vndbCachedPost acc p.1 p.2.2 (.ok p.2.1) p.2.2).2.1) m

/-- The cache entry a successful `cachedPost` at time `p.2.2` leaves for
fingerprint `p.1`, for a client with time-to-live `ttl`. -/
def entryOf (ttl : Int) (p : String × Payload × Int) : String × cacheEntry :=
  (p.1, { data := p.2.1, expire := p.2.2 + ttl, added := p.2.2 })

/-- A cache holding one stale entry, for the expiry counterexamples. -/
def staleCache : CacheMap :=
  [("k", { data := [7], expire := 5, added := 0 })]

/-- `cacheMaxEntries + 5` distinct fingerprints posted at strictly
increasing times 0, 1, 2, ...: the capacity scenario of spec §8. -/
def capacityScenario : List (String × Payload × Int) :=
  (List.range (cacheMaxEntries + 5)).map
    (fun i => (String.mk (List.replicate i 'a'), ([] : Payload), (i : Int)))

/-! ### Concrete data for the spec's three-cell scenario (spec §8) -/

def itemA : BrowseResult := { ID := 1, name := "A", nameCN := "", cover := "", typeLabel := "" }

def itemB : BrowseResult := { ID := 2, name := "B", nameCN := "", cover := "", typeLabel := "" }

def itemC : BrowseResult := { ID := 3, name := "C", nameCN := "", cover := "", typeLabel := "" }

def itemX : BrowseResult := { ID := 4, name := "X", nameCN := "", cover := "", typeLabel := "" }

def scenarioCell1 : RecommendCellSpec := { label := "cell1", tags := ["comedy"], sort := "rank", subjectType := "", offset := 0 }

def scenarioCell2 : RecommendCellSpec := { label := "cell2", tags := ["comedy"], sort := "rank", subjectType := "", offset := 1 }

def scenarioCell3 : RecommendCellSpec := { label := "cell3", tags := ["drama"], sort := "rank", subjectType := "", offset := 0 }

/-- Pool map of the scenario: `[A, B, C]` for the comedy group, `[X]` for
the drama group. -/
def scenarioPool : recommendQueryKey → Option (List BrowseResult) := fun key =>
  if key = makeRecommendKey scenarioCell1 then some [itemA, itemB, itemC]
  else if key = makeRecommendKey scenarioCell3 then some [itemX]
  else none

def scenarioRequest : RecommendRequest :=
  { cells := [scenarioCell1, scenarioCell2, scenarioCell3], excludeIDs := [] }

/-- A spec whose tag list holds a duplicated tag. -/
def dupTagsSpec1 : RecommendCellSpec :=
  { label := "", tags := ["a", "a"], sort := "rank", subjectType := "anime", offset := 0 }

/-- A spec with the same underlying tag set as `dupTagsSpec1` but without
the duplicate. -/
def dupTagsSpec2 : RecommendCellSpec :=
  { label := "", tags := ["a"], sort := "rank", subjectType := "anime", offset := 0 }

/-! ## Helper lemmas about the allocator -/

/-- `sort.Strings` computes the same result on any two permutations of the
same tag list: the sorted permutation is unique for the total antisymmetric
string order. -/
theorem sortStrings_perm {l1 l2 : List String} (h : List.Perm l1 l2) :
    sortStrings l1 = sortStrings l2 :=
  List.eq_of_perm_of_sorted
    ((List.perm_insertionSort _ l1).trans (h.trans (List.perm_insertionSort _ l2).symm))
    (List.sorted_insertionSort _ l1) (List.sorted_insertionSort _ l2)

/-- The scan of one pool, characterized declaratively: starting with
`skipped = sk`, it returns the element of the not-yet-excluded sublist at
position `offset - sk`. -/
theorem findUnused_eq (used : List Int) (offset : Int) :
    ∀ (items : List BrowseResult) (sk : Int), 0 ≤ sk → sk ≤ offset →
      findUnused used offset sk items
        = (items.filter (fun it => !(decide (it.ID ∈ used))))[(offset - sk).toNat]?
  | [], sk, _, _ => by simp [findUnused]
  | item :: rest, sk, h0, hle => by
    by_cases hu : item.ID ∈ used
    · rw [findUnused, if_pos hu, List.filter_cons_of_neg (by simp [hu])]
      exact findUnused_eq used offset rest sk h0 hle
    · rw [findUnused, if_neg hu, List.filter_cons_of_pos (by simp [hu])]
      by_cases hsk : sk < offset
      · rw [if_pos hsk]
        have h1 : (offset - sk).toNat = (offset - (sk + 1)).toNat + 1 := by omega
        rw [h1, List.getElem?_cons_succ]
        exact findUnused_eq used offset rest (sk + 1) (by omega) (by omega)
      · rw [if_neg hsk]
        have h1 : (offset - sk).toNat = 0 := by omega
        rw [h1, List.getElem?_cons_zero]

/-- A returned item comes from the pool and its ID is not yet excluded. -/
theorem findUnused_mem (used : List Int) (offset : Int) :
    ∀ (items : List BrowseResult) (sk : Int) (it : BrowseResult),
      findUnused used offset sk items = some it → it ∈ items ∧ it.ID ∉ used
  | [], _, _, h => by simp [findUnused] at h
  | item :: rest, sk, it, h => by
    by_cases hu : item.ID ∈ used
    · rw [findUnused, if_pos hu] at h
      have ih := findUnused_mem used offset rest sk it h
      exact ⟨List.mem_cons_of_mem _ ih.1, ih.2⟩
    · rw [findUnused, if_neg hu] at h
      by_cases hsk : sk < offset
      · rw [if_pos hsk] at h
        have ih := findUnused_mem used offset rest (sk + 1) it h
        exact ⟨List.mem_cons_of_mem _ ih.1, ih.2⟩
      · rw [if_neg hsk] at h
        cases h
        exact ⟨List.mem_cons_self _ _, hu⟩

/-- The assigned IDs of an allocation run contain no duplicates and avoid
the whole starting exclusion set. -/
theorem allocateCells_assigned (pool : recommendQueryKey → Option (List BrowseResult)) :
    ∀ (cells : List RecommendCellSpec) (used : List Int),
      (assignedIDs (allocateCells pool used cells)).Nodup
        ∧ ∀ id ∈ assignedIDs (allocateCells pool used cells), id ∉ used
  | [], used => by simp [allocateCells, assignedIDs]
  | spec :: rest, used => by
    rw [allocateCells]
    cases hp : pool (makeRecommendKey spec) with
    | none =>
      simpa [assignedIDs] using allocateCells_assigned pool rest used
    | some items =>
      by_cases he : items.isEmpty
      · simpa [he, assignedIDs] using allocateCells_assigned pool rest used
      · simp only [he, Bool.false_eq_true, if_false]
        cases hf : findUnused used spec.offset 0 items with
        | none =>
          simpa [assignedIDs] using allocateCells_assigned pool rest used
        | some it =>
          have hnu := (findUnused_mem used spec.offset items 0 it hf).2
          have ih := allocateCells_assigned pool rest (it.ID :: used)
          have hcons : assignedIDs ({ label := spec.label, item := some it, found := true }
              :: allocateCells pool (it.ID :: used) rest)
              = it.ID :: assignedIDs (allocateCells pool (it.ID :: used) rest) := rfl
          rw [hcons]
          constructor
          · refine List.nodup_cons.mpr ⟨fun hmem => ?_, ih.1⟩
            exact (ih.2 it.ID hmem) (List.mem_cons_self _ _)
          · intro id hid
            rcases List.mem_cons.mp hid with h | h
            · exact h ▸ hnu
            · exact fun hu => (ih.2 id h) (List.mem_cons_of_mem _ hu)

/-- Allocation only consults the pool map at the group keys of its cells. -/
theorem allocateCells_congr (pool1 pool2 : recommendQueryKey → Option (List BrowseResult)) :
    ∀ (cells : List RecommendCellSpec) (used : List Int),
      (∀ spec ∈ cells, pool1 (makeRecommendKey spec) = pool2 (makeRecommendKey spec)) →
      allocateCells pool1 used cells = allocateCells pool2 used cells
  | [], _, _ => rfl
  | spec :: rest, used, h => by
    have hhead := h spec (List.mem_cons_self _ _)
    have htail := fun s hs => h s (List.mem_cons_of_mem _ hs)
    rw [allocateCells, allocateCells, ← hhead]
    cases hp : pool1 (makeRecommendKey spec) with
    | none => simp [allocateCells_congr pool1 pool2 rest used htail]
    | some items =>
      by_cases he : items.isEmpty
      · simp [he, allocateCells_congr pool1 pool2 rest used htail]
      · simp only [he, Bool.false_eq_true, if_false]
        cases hf : findUnused used spec.offset 0 items with
        | none => simp [allocateCells_congr pool1 pool2 rest used htail]
        | some it => simp [allocateCells_congr pool1 pool2 rest _ htail]

/-- Cells of a group whose pool lookup failed get the not-found result and
leave the exclusion set untouched, and the remaining cells allocate exactly
as if the failed group's cells were not part of the batch. -/
theorem allocateCells_failed_group (pool : recommendQueryKey → Option (List BrowseResult))
    (k : recommendQueryKey) (hfail : pool k = none) :
    ∀ (cells : List RecommendCellSpec) (used : List Int),
      (∀ p ∈ cells.zip (allocateCells pool used cells), makeRecommendKey p.1 = k →
        p.2 = { label := p.1.label, item := none, found := false })
      ∧ ((cells.zip (allocateCells pool used cells)).filterMap
            (fun p => if makeRecommendKey p.1 = k then none else some p.2)
          = allocateCells pool used (cells.filter (fun s => !(decide (makeRecommendKey s = k)))))
  | [], used => by simp [allocateCells]
  | spec :: rest, used => by
    by_cases hk : makeRecommendKey spec = k
    · have hp : pool (makeRecommendKey spec) = none := hk ▸ hfail
      rw [allocateCells, hp]
      have ih := allocateCells_failed_group pool k hfail rest used
      refine ⟨?_, ?_⟩
      · intro p hp2 hpk
        rcases List.mem_cons.mp hp2 with h | h
        · rw [h]
        · exact ih.1 p h hpk
      · rw [List.zip_cons_cons, List.filterMap_cons,
          List.filter_cons_of_neg (by simp [hk])]
        simp only [hk, if_pos rfl]
        exact ih.2
    · rw [allocateCells, List.filter_cons_of_pos (by simp [hk])]
      cases hp : pool (makeRecommendKey spec) with
      | none =>
        have ih := allocateCells_failed_group pool k hfail rest used
        refine ⟨?_, ?_⟩
        · intro p hp2 hpk
          rcases List.mem_cons.mp hp2 with h | h
          · rw [h]
          · exact ih.1 p h hpk
        · rw [List.zip_cons_cons, List.filterMap_cons]
          simp only [hk, if_neg hk]
          rw [allocateCells, hp]
          exact congrArg _ ih.2
      | some items =>
        by_cases he : items.isEmpty
        · have ih := allocateCells_failed_group pool k hfail rest used
          simp only [he, Bool.false_eq_true, if_true]
          refine ⟨?_, ?_⟩
          · intro p hp2 hpk
            rcases List.mem_cons.mp hp2 with h | h
            · rw [h]
            · exact ih.1 p h hpk
          · rw [List.zip_cons_cons, List.filterMap_cons]
            simp only [hk, if_neg hk]
            rw [allocateCells, hp]
            simp only [he, Bool.false_eq_true, if_true]
            exact congrArg _ ih.2
        · simp only [he, Bool.false_eq_true, if_false]
          cases hf : findUnused used spec.offset 0 items with
          | none =>
            have ih := allocateCells_failed_group pool k hfail rest used
            refine ⟨?_, ?_⟩
            · intro p hp2 hpk
              rcases List.mem_cons.mp hp2 with h | h
              · rw [h]
              · exact ih.1 p h hpk
            · rw [List.zip_cons_cons, List.filterMap_cons]
              simp only [hk, if_neg hk]
              rw [allocateCells, hp]
              simp only [he, Bool.false_eq_true, if_false, hf]
              exact congrArg _ ih.2
          | some it =>
            have ih := allocateCells_failed_group pool k hfail rest (it.ID :: used)
            refine ⟨?_, ?_⟩
            · intro p hp2 hpk
              rcases List.mem_cons.mp hp2 with h | h
              · exfalso
                apply hk
                have := congrArg Prod.fst h
                simp at this
                rw [this] at hpk
                exact hpk
              · exact ih.1 p h hpk
            · rw [List.zip_cons_cons, List.filterMap_cons]
              simp only [hk, if_neg hk]
              rw [allocateCells, hp]
              simp only [he, Bool.false_eq_true, if_false, hf]
              exact congrArg _ ih.2

/-- Two specs with the same sort, the same subject type and tag lists that
are permutations of each other compute the same group key. -/
theorem makeRecommendKey_eq_of_perm (s1 s2 : RecommendCellSpec)
    (hsort : s1.sort = s2.sort) (htype : s1.subjectType = s2.subjectType)
    (htags : List.Perm s1.tags s2.tags) :
    makeRecommendKey s1 = makeRecommendKey s2 := by
  unfold makeRecommendKey
  rw [sortStrings_perm htags, hsort, htype, htags.length_eq]

/-! ## The claims -/

/-- Claim C1: for every batch recommendation call (any pool contents, any
cell list, any exclusion seed), no two entries of the output carry the same
assigned item identifier, and no assigned identifier is an element of the
caller-supplied exclusion seed. -/
theorem recommend_allocation_unique (pool : recommendQueryKey → Option (List BrowseResult))
    (req : RecommendRequest) (resp : RecommendResponse)
    (h : Recommend pool req = .ok resp) :
    (assignedIDs resp.results).Nodup
      ∧ ∀ id ∈ assignedIDs resp.results, id ∉ req.excludeIDs := by
  have hr : resp.results = recommendResults pool req := by
    by_cases hc : req.cells = []
    · rw [Recommend, if_pos hc] at h
      injection h with h2
      rw [← h2]
      simp [recommendResults, hc, allocateCells]
    · rw [Recommend, if_neg hc] at h
      injection h with h2
      rw [← h2]
  rw [hr]
  exact allocateCells_assigned pool req.cells req.excludeIDs

/-- Witness for C1: a one-cell batch with exclusion seed `[5]` assigns item
`A` (ID 1), which is unique and avoids the seed. -/
theorem recommend_allocation_unique_witness :
    (assignedIDs [{ label := "w", item := some itemA, found := true }]).Nodup
      ∧ ∀ id ∈ assignedIDs [{ label := "w", item := some itemA, found := true }], id ∉ [(5 : Int)] :=
  recommend_allocation_unique (fun _ => some [itemA])
    { cells := [{ label := "w", tags := [], sort := "rank", subjectType := "", offset := 0 }], excludeIDs := [5] }
    { results := [{ label := "w", item := some itemA, found := true }] } rfl

/-- Claim C2: processing one spec scans its group's pool in order, passes
over already-excluded IDs without counting them, then skips exactly
`spec.offset` of the surviving items; the next survivor (the element of the
non-excluded sublist at index `spec.offset`), if any, is assigned with
`found = true` and its ID joins the exclusion set before the next spec is
processed; if the pool is exhausted first the cell stays not-found. -/
theorem recommend_allocator_step (pool : recommendQueryKey → Option (List BrowseResult))
    (used : List Int) (spec : RecommendCellSpec) (rest : List RecommendCellSpec)
    (hoff : 0 ≤ spec.offset) :
    allocateCells pool used (spec :: rest) =
      match pool (makeRecommendKey spec) with
      | none => { label := spec.label, item := none, found := false } :: allocateCells pool used rest
      | some items =>
        match (items.filter (fun it => !(decide (it.ID ∈ used))))[spec.offset.toNat]? with
        | none => { label := spec.label, item := none, found := false } :: allocateCells pool used rest
        | some item => { label := spec.label, item := some item, found := true } :: allocateCells pool (item.ID :: used) rest := by
  rw [allocateCells]
  cases hp : pool (makeRecommendKey spec) with
  | none => rfl
  | some items =>
    cases items with
    | nil => rfl
    | cons a l =>
      have heq := findUnused_eq used spec.offset (a :: l) 0 le_rfl hoff
      rw [sub_zero] at heq
      show (match findUnused used spec.offset 0 (a :: l) with
        | none => ({ label := spec.label, item := none, found := false } : RecommendCellResult) :: allocateCells pool used rest
        | some item => ({ label := spec.label, item := some item, found := true } : RecommendCellResult) :: allocateCells pool (item.ID :: used) rest)
        = (match (List.filter (fun it => !decide (it.ID ∈ used)) (a :: l))[spec.offset.toNat]? with
        | none => ({ label := spec.label, item := none, found := false } : RecommendCellResult) :: allocateCells pool used rest
        | some item => ({ label := spec.label, item := some item, found := true } : RecommendCellResult) :: allocateCells pool (item.ID :: used) rest)
      rw [heq]

/-- Witness for C2: with exclusion set `[1]` and pool `[A, B, C]`, a spec
with skip 1 passes over the excluded `A`, skips `B`, and is assigned `C`. -/
theorem recommend_allocator_step_witness :
    (0 : Int) ≤ (1 : Int)
      ∧ allocateCells (fun _ => some [itemA, itemB, itemC]) [1]
          [{ label := "w2", tags := [], sort := "rank", subjectType := "", offset := 1 }]
        = [{ label := "w2", item := some itemC, found := true }] := by
  refine ⟨by decide, ?_⟩
  rw [recommend_allocator_step (fun _ => some [itemA, itemB, itemC]) [1]
    { label := "w2", tags := [], sort := "rank", subjectType := "", offset := 1 } [] (by decide)]
  rfl

/-- Counterexample for C3: on the spec's three-cell scenario the allocator
does not produce the claimed assignment `cell1 → A, cell2 → B, cell3 → X`
(the actual second assignment is `C`, because the skip of 1 is counted
among the not-yet-excluded survivors `[B, C]`, skipping `B`). -/
theorem recommend_scenario_counterexample :
    recommendResults scenarioPool scenarioRequest ≠
      [{ label := "cell1", item := some itemA, found := true },
       { label := "cell2", item := some itemB, found := true },
       { label := "cell3", item := some itemX, found := true }] := by
  have h : recommendResults scenarioPool scenarioRequest =
      [{ label := "cell1", item := some itemA, found := true },
       { label := "cell2", item := some itemC, found := true },
       { label := "cell3", item := some itemX, found := true }] := rfl
  rw [h]
  decide

/-- Claim C3 (amended): in the scenario, allocation assigns `A` to cell1,
`C` to cell2 (skip 1 counts only non-excluded items, so it passes over `B`,
not over the excluded `A`), and `X` to cell3. -/
theorem recommend_scenario_amended :
    Recommend scenarioPool scenarioRequest =
      .ok { results :=
        [{ label := "cell1", item := some itemA, found := true },
         { label := "cell2", item := some itemC, found := true },
         { label := "cell3", item := some itemX, found := true }] } := rfl

/-- Claim C6: when the fetch for group `k` fails (its pool entry is
absent), the batch still succeeds; every cell of group `k` reports
`found = false` with no item; and the remaining cells receive exactly the
assignments they would have received had the group-`k` cells not existed,
under any pool that agrees outside `k`. -/
theorem recommend_failed_group (pool pool2 : recommendQueryKey → Option (List BrowseResult))
    (k : recommendQueryKey) (req : RecommendRequest)
    (hfail : pool k = none)
    (hagree : ∀ key, key ≠ k → pool2 key = pool key) :
    Recommend pool req = .ok { results := recommendResults pool req }
    ∧ (∀ p ∈ req.cells.zip (recommendResults pool req), makeRecommendKey p.1 = k →
        p.2 = { label := p.1.label, item := none, found := false })
    ∧ (req.cells.zip (recommendResults pool req)).filterMap
        (fun p => if makeRecommendKey p.1 = k then none else some p.2)
      = recommendResults pool2
          { cells := req.cells.filter (fun s => !(decide (makeRecommendKey s = k))),
            excludeIDs := req.excludeIDs } := by
  have hmain := allocateCells_failed_group pool k hfail req.cells req.excludeIDs
  refine ⟨?_, hmain.1, ?_⟩
  · by_cases hc : req.cells = []
    · rw [Recommend, if_pos hc]
      simp [recommendResults, hc, allocateCells]
    · rw [Recommend, if_neg hc]
  · rw [recommendResults, hmain.2]
    exact (allocateCells_congr pool2 pool _ req.excludeIDs (fun s hs => by
      have hk : makeRecommendKey s ≠ k := by
        have := (List.mem_filter.mp hs).2
        simpa using this
      exact hagree _ hk)).symm

/-- Witness for C6: with every group failing, all three scenario cells are
not-found, and the filtered batch allocates identically. -/
theorem recommend_failed_group_witness :
    Recommend (fun _ => none) scenarioRequest
        = .ok { results := recommendResults (fun _ => none) scenarioRequest }
    ∧ (∀ p ∈ scenarioRequest.cells.zip (recommendResults (fun _ => none) scenarioRequest),
        makeRecommendKey p.1 = makeRecommendKey scenarioCell3 →
        p.2 = { label := p.1.label, item := none, found := false })
    ∧ (scenarioRequest.cells.zip (recommendResults (fun _ => none) scenarioRequest)).filterMap
        (fun p => if makeRecommendKey p.1 = makeRecommendKey scenarioCell3 then none else some p.2)
      = recommendResults (fun _ => none)
          { cells := scenarioRequest.cells.filter
              (fun s => !(decide (makeRecommendKey s = makeRecommendKey scenarioCell3))),
            excludeIDs := scenarioRequest.excludeIDs } :=
  recommend_failed_group (fun _ => none) (fun _ => none)
    (makeRecommendKey scenarioCell3) scenarioRequest rfl (fun _ _ => rfl)

/-- Counterexample for C7: two specs with the same sort, same subject type
and the same underlying tag set (`{"a"}`) but different duplicate
multiplicity get different group keys: the key joins the sorted tag list
without deduplicating it. -/
theorem groupKey_dedup_counterexample :
    dupTagsSpec1.sort = dupTagsSpec2.sort
    ∧ dupTagsSpec1.subjectType = dupTagsSpec2.subjectType
    ∧ dupTagsSpec1.tags.dedup = dupTagsSpec2.tags.dedup
    ∧ makeRecommendKey dupTagsSpec1 ≠ makeRecommendKey dupTagsSpec2 := by
  exact ⟨rfl, rfl, rfl, by decide⟩

/-- Claim C7 (amended): two specs with the same sort field and subject type
whose tag lists hold the same multiset of tags (equal up to reordering,
duplicates counted) compute the same group key; the key is built from the
sorted tag list, which is not deduplicated. -/
theorem groupKey_same_multiset (s1 s2 : RecommendCellSpec)
    (hsort : s1.sort = s2.sort) (htype : s1.subjectType = s2.subjectType)
    (htags : List.Perm s1.tags s2.tags) :
    makeRecommendKey s1 = makeRecommendKey s2 :=
  makeRecommendKey_eq_of_perm s1 s2 hsort htype htags

/-- Witness for C7 (amended): specs with tag lists `["b", "a"]` and
`["a", "b"]` (and different labels and skips) share a group key. -/
theorem groupKey_same_multiset_witness :
    makeRecommendKey { label := "p", tags := ["b", "a"], sort := "heat", subjectType := "", offset := 0 }
      = makeRecommendKey { label := "q", tags := ["a", "b"], sort := "heat", subjectType := "", offset := 3 } :=
  groupKey_same_multiset
    { label := "p", tags := ["b", "a"], sort := "heat", subjectType := "", offset := 0 }
    { label := "q", tags := ["a", "b"], sort := "heat", subjectType := "", offset := 3 }
    rfl rfl (List.Perm.swap "a" "b" [])

/-- Claim C8: the group key of a spec is invariant under any permutation of
its tag list. -/
theorem groupKey_perm_invariant (spec : RecommendCellSpec) (tags2 : List String)
    (h : List.Perm spec.tags tags2) :
    makeRecommendKey { spec with tags := tags2 } = makeRecommendKey spec :=
  makeRecommendKey_eq_of_perm { spec with tags := tags2 } spec rfl rfl h.symm

/-- Witness for C8: reordering the tag list `["b", "a"]` of a concrete spec
to `["a", "b"]` keeps its group key. -/
theorem groupKey_perm_invariant_witness :
    makeRecommendKey { label := "w8", tags := ["a", "b"], sort := "rank", subjectType := "", offset := 2 }
      = makeRecommendKey { label := "w8", tags := ["b", "a"], sort := "rank", subjectType := "", offset := 2 } :=
  groupKey_perm_invariant
    { label := "w8", tags := ["b", "a"], sort := "rank", subjectType := "", offset := 2 }
    ["a", "b"] (List.Perm.swap "a" "b" [])

/-- Claim C10: `Recommend` on an empty cell list returns a response (not an
error) with an empty result list, and issues no group fetch at all. -/
theorem recommend_empty_cells (pool : recommendQueryKey → Option (List BrowseResult))
    (excl : List Int) :
    Recommend pool { cells := [], excludeIDs := excl } = .ok { results := [] }
    ∧ recommendFetchedKeys { cells := [], excludeIDs := excl } = [] :=
  ⟨rfl, rfl⟩

/-! ## The cache claims -/

/-- Deleting a key really removes it from the map. -/
theorem mapGet_mapErase (m : CacheMap) (k : String) : mapGet (mapErase m k) k = none := by
  induction m with
  | nil => rfl
  | cons p rest ih =>
    by_cases h : p.1 == k
    · rw [mapErase, List.filter_cons]
      simp only [h, Bool.not_true, Bool.false_eq_true, if_false]
      exact ih
    · simp [mapErase, mapGet, List.filter_cons, h, List.find?] at ih ⊢

/-- The three possible outcomes of the lookup phase: absent key, unexpired
hit, expired entry (which the lookup deletes). -/
theorem cacheGet_eq (m : CacheMap) (k : String) (now : Int) :
    (mapGet m k = none ∧ cacheGet m k now = (none, m))
    ∨ (∃ e, mapGet m k = some e ∧ now < e.expire ∧ cacheGet m k now = (some e.data, m))
    ∨ (∃ e, mapGet m k = some e ∧ ¬ now < e.expire ∧ cacheGet m k now = (none, mapErase m k)) := by
  unfold cacheGet
  cases hg : mapGet m k with
  | none => exact Or.inl ⟨rfl, rfl⟩
  | some e =>
    by_cases ht : now < e.expire
    · exact Or.inr (Or.inl ⟨e, rfl, ht, by simp [ht]⟩)
    · exact Or.inr (Or.inr ⟨e, rfl, ht, by simp [ht]⟩)

/-- A lookup for an absent key misses and leaves the map unchanged. -/
theorem cacheGet_of_absent (m : CacheMap) (k : String) (now : Int)
    (h : mapGet m k = none) : cacheGet m k now = (none, m) := by
  unfold cacheGet
  rw [h]

/-- Counterexample for C4: a cache holding only an expired entry for
fingerprint `"k"` misses at time 10, yet the lookup changes the cache
state: the expired entry is deleted (bangumi.go:435, vndb.go:328). -/
theorem cacheGet_expired_mutation_counterexample :
    mapGet staleCache "k" = some { data := [7], expire := 5, added := 0 }
    ∧ (cacheGet staleCache "k" 10).1 = none
    ∧ (cacheGet staleCache "k" 10).2 ≠ staleCache := by
  refine ⟨rfl, rfl, ?_⟩
  decide

/-- Claim C4 (amended): a cache lookup returns the stored payload if and
only if an entry for the fingerprint exists and the current time is before
its expiry; a hit and a no-entry miss leave the cache state unchanged; a
miss on an expired entry removes exactly that entry. -/
theorem cacheGet_spec (m : CacheMap) (k : String) (now : Int) :
    (∀ d, (cacheGet m k now).1 = some d ↔ ∃ e, mapGet m k = some e ∧ now < e.expire ∧ e.data = d)
    ∧ (mapGet m k = none → (cacheGet m k now).2 = m)
    ∧ (∀ e, mapGet m k = some e → now < e.expire → (cacheGet m k now).2 = m)
    ∧ (∀ e, mapGet m k = some e → ¬ now < e.expire → (cacheGet m k now).2 = mapErase m k) := by
  rcases cacheGet_eq m k now with ⟨hg, he⟩ | ⟨e, hg, ht, he⟩ | ⟨e, hg, ht, he⟩
  · rw [he, hg]
    refine ⟨?_, fun _ => rfl, ?_, ?_⟩
    · intro d
      simp
    · intro e2 he2
      cases he2
    · intro e2 he2
      cases he2
  · rw [he, hg]
    refine ⟨?_, ?_, ?_, ?_⟩
    · intro d
      constructor
      · intro hd
        exact ⟨e, rfl, ht, Option.some.inj hd⟩
      · rintro ⟨e2, he2, -, h3⟩
        have h4 := Option.some.inj he2
        subst h4
        exact congrArg some h3
    · intro h
      cases h
    · intro e2 he2 h2
      rfl
    · intro e2 he2 h2
      have h4 := Option.some.inj he2
      subst h4
      exact absurd ht h2
  · rw [he, hg]
    refine ⟨?_, ?_, ?_, ?_⟩
    · intro d
      constructor
      · intro hd
        cases hd
      · rintro ⟨e2, he2, h2, -⟩
        have h4 := Option.some.inj he2
        subst h4
        exact absurd h2 ht
    · intro h
      cases h
    · intro e2 he2 h2
      have h4 := Option.some.inj he2
      subst h4
      exact absurd h2 ht
    · intro e2 he2 h2
      rfl

/-- Witness for C4 (amended): at time 3 the stale-cache entry (expiry 5) is
still a hit returning its payload, and the hit leaves the cache unchanged. -/
theorem cacheGet_spec_witness :
    (cacheGet staleCache "k" 3).1 = some [7]
    ∧ (cacheGet staleCache "k" 3).2 = staleCache :=
  ⟨((cacheGet_spec staleCache "k" 3).1 [7]).mpr
      ⟨{ data := [7], expire := 5, added := 0 }, rfl, by decide, rfl⟩,
    (cacheGet_spec staleCache "k" 3).2.2.1 { data := [7], expire := 5, added := 0 } rfl (by decide)⟩

/-- Counterexample for C9: with a stale entry for the fingerprint, a miss
whose upstream call fails returns the error but leaves a cache state
different from the pre-call state (the lookup already deleted the expired
entry), in both clients. -/
theorem cachedPost_error_mutation_counterexample :
    (bgmCachedPost staleCache "k" 10 (Except.error "boom") 11).1 = Except.error "boom"
    ∧ (bgmCachedPost staleCache "k" 10 (Except.error "boom") 11).2.1 ≠ staleCache
    ∧ (vndbCachedPost staleCache "k" 10 (Except.error "boom") 11).1 = Except.error "boom"
    ∧ (vndbCachedPost staleCache "k" 10 (Except.error "boom") 11).2.1 ≠ staleCache :=
  ⟨rfl, by decide, rfl, by decide⟩

/-- Claim C9 (amended): when the lookup misses and the upstream call fails,
no entry is inserted for the fingerprint: both clients return the error and
leave exactly the post-lookup cache (the pre-call cache minus a possible
expired entry for the fingerprint), the resulting cache holds no entry for
the fingerprint, and any subsequent call with the same fingerprint performs
the upstream call again rather than serving a cached failure. -/
theorem cachedPost_error_no_insert (m : CacheMap) (k : String) (now cachedAt : Int)
    (err : String) (hmiss : (cacheGet m k now).1 = none) :
    bgmCachedPost m k now (.error err) cachedAt = (.error err, (cacheGet m k now).2, true)
    ∧ vndbCachedPost m k now (.error err) cachedAt = (.error err, (cacheGet m k now).2, true)
    ∧ mapGet (cacheGet m k now).2 k = none
    ∧ (∀ upstream2 now2 t2, (bgmCachedPost (cacheGet m k now).2 k now2 upstream2 t2).2.2 = true)
    ∧ (∀ upstream2 now2 t2, (vndbCachedPost (cacheGet m k now).2 k now2 upstream2 t2).2.2 = true) := by
  have hpair : cacheGet m k now = (none, (cacheGet m k now).2) := by
    rw [← hmiss]
  have habsent : mapGet (cacheGet m k now).2 k = none := by
    rcases cacheGet_eq m k now with ⟨hg, he⟩ | ⟨e, hg, ht, he⟩ | ⟨e, hg, ht, he⟩
    · rw [he]
      exact hg
    · rw [he] at hmiss
      cases hmiss
    · rw [he]
      exact mapGet_mapErase m k
  refine ⟨?_, ?_, habsent, ?_, ?_⟩
  · unfold bgmCachedPost
    rw [hpair]
  · unfold vndbCachedPost
    rw [hpair]
  · intro upstream2 now2 t2
    unfold bgmCachedPost
    rw [cacheGet_of_absent _ _ _ habsent]
    cases upstream2 with
    | error e => rfl
    | ok r => rfl
  · intro upstream2 now2 t2
    unfold vndbCachedPost
    rw [cacheGet_of_absent _ _ _ habsent]
    cases upstream2 with
    | error e => rfl
    | ok r => rfl

/-! ### Eviction-policy lemmas (claim C5) -/

/-- In a map with distinct keys, an entry is determined by its key. -/
theorem nodup_keys_unique {m : CacheMap} (hnd : (m.map Prod.fst).Nodup) :
    ∀ p ∈ m, ∀ q ∈ m, p.1 = q.1 → p = q := by
  induction m with
  | nil => intro p hp; cases hp
  | cons r rest ih =>
    have hr : r.1 ∉ rest.map Prod.fst := (List.nodup_cons.mp hnd).1
    have hnd2 : (rest.map Prod.fst).Nodup := (List.nodup_cons.mp hnd).2
    intro p hp q hq hpq
    rcases List.mem_cons.mp hp with hp1 | hp1 <;> rcases List.mem_cons.mp hq with hq1 | hq1
    · rw [hp1, hq1]
    · exfalso
      apply hr
      have h2 : r.1 = q.1 := by rw [← hp1]; exact hpq
      rw [h2]
      exact List.mem_map_of_mem Prod.fst hq1
    · exfalso
      apply hr
      have h2 : r.1 = p.1 := by rw [← hq1]; exact hpq.symm
      rw [h2]
      exact List.mem_map_of_mem Prod.fst hp1
    · exact ih hnd2 p hp1 q hq1 hpq

/-- Erasing an absent key changes nothing. -/
theorem mapErase_of_not_mem {m : CacheMap} {k : String}
    (h : k ∉ m.map Prod.fst) : mapErase m k = m := by
  apply List.filter_eq_self.mpr
  intro p hp
  have : p.1 ≠ k := fun he => h (he ▸ List.mem_map_of_mem Prod.fst hp)
  simp [this]

/-- Erasing a present key of a map with distinct keys removes exactly one
entry. -/
theorem length_mapErase_of_mem {m : CacheMap} {k : String}
    (hnd : (m.map Prod.fst).Nodup) (h : k ∈ m.map Prod.fst) :
    (mapErase m k).length + 1 = m.length := by
  induction m with
  | nil => cases h
  | cons r rest ih =>
    have hr : r.1 ∉ rest.map Prod.fst := (List.nodup_cons.mp hnd).1
    have hnd2 : (rest.map Prod.fst).Nodup := (List.nodup_cons.mp hnd).2
    by_cases hk : r.1 = k
    · rw [mapErase, List.filter_cons]
      simp only [hk, beq_self_eq_true, Bool.not_true, Bool.false_eq_true, if_false]
      have : mapErase rest k = rest := mapErase_of_not_mem (hk ▸ hr)
      rw [mapErase] at this
      rw [this]
      simp
    · have hmem : k ∈ rest.map Prod.fst := by
        rcases List.mem_cons.mp h with h1 | h1
        · exact absurd h1.symm hk
        · exact h1
      rw [mapErase, List.filter_cons]
      have : (!(r.1 == k)) = true := by simp [hk]
      rw [this]
      simp only [if_true]
      have ih2 := ih hnd2 hmem
      rw [mapErase] at ih2
      simp only [List.length_cons]
      omega

/-- A sublist of a map with distinct keys has distinct keys. -/
theorem nodup_keys_sublist {m2 m : CacheMap} (h : m2.Sublist m)
    (hnd : (m.map Prod.fst).Nodup) : (m2.map Prod.fst).Nodup :=
  (h.map Prod.fst).nodup hnd

/-- Deletion only removes entries. -/
theorem mapErase_sublist (m : CacheMap) (k : String) : (mapErase m k).Sublist m :=
  List.filter_sublist m

/-- What the one-pass scan of bangumi's eviction loop returns: either its
accumulator, or the key and `added` of some entry; the returned `added` is
a lower bound of the whole list and of the accumulator. -/
theorem findOldestAux_spec :
    ∀ (m : CacheMap) (acc : Option (String × Int)) (r : String × Int),
      findOldestAux acc m = some r →
      ((acc = some r) ∨ (∃ e, (r.1, e) ∈ m ∧ e.added = r.2))
      ∧ (∀ p ∈ m, r.2 ≤ p.2.added)
      ∧ (∀ a, acc = some a → r.2 ≤ a.2)
  | [], acc, r => by
    intro h
    rw [findOldestAux] at h
    refine ⟨Or.inl h, by simp, ?_⟩
    intro a ha
    rw [ha] at h
    have h2 := Option.some.inj h
    rw [h2]
  | p :: rest, none, r => by
    intro h
    rw [findOldestAux] at h
    have ih := findOldestAux_spec rest (some (p.1, p.2.added)) r h
    refine ⟨?_, ?_, ?_⟩
    · rcases ih.1 with h1 | ⟨e, he, hea⟩
      · have h2 : r = (p.1, p.2.added) := (Option.some.inj h1).symm
        exact Or.inr ⟨p.2, by rw [h2]; exact ⟨List.mem_cons_self _ _, rfl⟩⟩
      · exact Or.inr ⟨e, List.mem_cons_of_mem _ he, hea⟩
    · intro q hq
      rcases List.mem_cons.mp hq with h1 | h1
      · rw [h1]
        exact ih.2.2 _ rfl
      · exact ih.2.1 q h1
    · intro a ha
      cases ha
  | p :: rest, some (k, a), r => by
    intro h
    rw [findOldestAux] at h
    by_cases hlt : p.2.added < a
    · rw [if_pos hlt] at h
      have ih := findOldestAux_spec rest (some (p.1, p.2.added)) r h
      refine ⟨?_, ?_, ?_⟩
      · rcases ih.1 with h1 | ⟨e, he, hea⟩
        · have h2 : r = (p.1, p.2.added) := (Option.some.inj h1).symm
          exact Or.inr ⟨p.2, by rw [h2]; exact ⟨List.mem_cons_self _ _, rfl⟩⟩
        · exact Or.inr ⟨e, List.mem_cons_of_mem _ he, hea⟩
      · intro q hq
        rcases List.mem_cons.mp hq with h1 | h1
        · rw [h1]
          exact ih.2.2 _ rfl
        · exact ih.2.1 q h1
      · intro a2 ha2
        have h1 := Option.some.inj ha2
        have h2 : r.2 ≤ p.2.added := ih.2.2 _ rfl
        rw [← h1]
        exact le_of_lt (lt_of_le_of_lt h2 hlt)
    · rw [if_neg hlt] at h
      have ih := findOldestAux_spec rest (some (k, a)) r h
      refine ⟨?_, ?_, ?_⟩
      · rcases ih.1 with h1 | ⟨e, he, hea⟩
        · exact Or.inl h1
        · exact Or.inr ⟨e, List.mem_cons_of_mem _ he, hea⟩
      · intro q hq
        rcases List.mem_cons.mp hq with h1 | h1
        · rw [h1]
          exact le_trans (ih.2.2 _ rfl) (not_lt.mp hlt)
        · exact ih.2.1 q h1
      · exact ih.2.2
  termination_by m => m.length

/-- The scan always produces a candidate on a nonempty map. -/
theorem findOldestAux_isSome :
    ∀ (m : CacheMap) (acc : Option (String × Int)), acc.isSome ∨ m ≠ [] →
      (findOldestAux acc m).isSome
  | [], acc, h => by
    rcases h with h | h
    · rw [findOldestAux]
      exact h
    · exact absurd rfl h
  | p :: rest, none, _ => by
    rw [findOldestAux]
    exact findOldestAux_isSome rest _ (Or.inl rfl)
  | p :: rest, some (k, a), _ => by
    rw [findOldestAux]
    by_cases hlt : p.2.added < a
    · rw [if_pos hlt]
      exact findOldestAux_isSome rest _ (Or.inl rfl)
    · rw [if_neg hlt]
      exact findOldestAux_isSome rest _ (Or.inl rfl)
  termination_by m => m.length

/-- The key bangumi's loop deletes next belongs to the map, and its entry's
`added` is minimal. -/
theorem findOldest_spec {m : CacheMap} {k : String} (h : findOldest m = some k) :
    ∃ e, (k, e) ∈ m ∧ ∀ p ∈ m, e.added ≤ p.2.added := by
  rw [findOldest] at h
  cases haux : findOldestAux none m with
  | none => rw [haux] at h; cases h
  | some r =>
    rw [haux] at h
    have hk : r.1 = k := Option.some.inj h
    have hs := findOldestAux_spec m none r haux
    rcases hs.1 with h1 | ⟨e, he, hea⟩
    · cases h1
    · exact ⟨e, hk ▸ he, fun p hp => hea ▸ hs.2.1 p hp⟩

/-- On a nonempty map the scan finds a victim. -/
theorem findOldest_isSome {m : CacheMap} (h : m ≠ []) : (findOldest m).isSome := by
  rw [findOldest]
  cases haux : findOldestAux none m with
  | none =>
    have h2 := findOldestAux_isSome m none (Or.inr h)
    rw [haux] at h2
    simp at h2
  | some r => rfl

/-- The eviction loop only removes entries. -/
theorem bgmEvictLoop_sublist : ∀ (fuel : Nat) (m : CacheMap), (bgmEvictLoop fuel m).Sublist m
  | 0, m => by rw [bgmEvictLoop]
  | fuel + 1, m => by
    rw [bgmEvictLoop]
    by_cases hlen : m.length ≤ cacheMaxEntries
    · rw [if_pos hlen]
    · rw [if_neg hlen]
      cases hf : findOldest m with
      | none => exact List.Sublist.refl m
      | some k => exact (bgmEvictLoop_sublist fuel (mapErase m k)).trans (mapErase_sublist m k)

/-- With enough fuel the loop stops exactly at the capacity bound: the
resulting size is `min m.length cacheMaxEntries`. -/
theorem bgmEvictLoop_length :
    ∀ (fuel : Nat) (m : CacheMap), (m.map Prod.fst).Nodup → m.length ≤ fuel →
      (bgmEvictLoop fuel m).length = min m.length cacheMaxEntries
  | 0, m, _, hfuel => by
    rw [bgmEvictLoop]
    have : m.length = 0 := Nat.le_zero.mp hfuel
    omega
  | fuel + 1, m, hnd, hfuel => by
    rw [bgmEvictLoop]
    by_cases hlen : m.length ≤ cacheMaxEntries
    · rw [if_pos hlen]
      omega
    · rw [if_neg hlen]
      have hne : m ≠ [] := by
        intro h
        rw [h] at hlen
        simp [cacheMaxEntries] at hlen
      cases hf : findOldest m with
      | none =>
        exfalso
        have h2 := findOldest_isSome hne
        rw [hf] at h2
        simp at h2
      | some k =>
        obtain ⟨e, he, -⟩ := findOldest_spec hf
        have hkmem : k ∈ m.map Prod.fst := List.mem_map_of_mem Prod.fst he
        have hlen2 := length_mapErase_of_mem hnd hkmem
        have hnd2 := nodup_keys_sublist (mapErase_sublist m k) hnd
        have ih := bgmEvictLoop_length fuel (mapErase m k) hnd2 (by omega)
        rw [ih]
        omega

/-- Every entry the bangumi loop evicts is at least as old (by `added`) as
every entry it keeps. -/
theorem bgmEvictLoop_oldest :
    ∀ (fuel : Nat) (m : CacheMap), (m.map Prod.fst).Nodup →
      ∀ p ∈ m, p ∉ bgmEvictLoop fuel m →
        ∀ q ∈ bgmEvictLoop fuel m, p.2.added ≤ q.2.added
  | 0, m, _, p, hp, hnp, q, hq => by
    rw [bgmEvictLoop] at hnp
    exact absurd hp hnp
  | fuel + 1, m, hnd, p, hp, hnp, q, hq => by
    rw [bgmEvictLoop] at hnp hq
    by_cases hlen : m.length ≤ cacheMaxEntries
    · rw [if_pos hlen] at hnp
      exact absurd hp hnp
    · rw [if_neg hlen] at hnp hq
      cases hf : findOldest m with
      | none =>
        rw [hf] at hnp
        exact absurd hp hnp
      | some k =>
        rw [hf] at hnp hq
        obtain ⟨e, he, hmin⟩ := findOldest_spec hf
        have hnd2 := nodup_keys_sublist (mapErase_sublist m k) hnd
        by_cases hpin : p ∈ mapErase m k
        · exact bgmEvictLoop_oldest fuel (mapErase m k) hnd2 p hpin hnp q hq
        · have hpk : p.1 = k := by
            by_contra hne
            apply hpin
            rw [mapErase, List.mem_filter]
            exact ⟨hp, by simp [hne]⟩
          have hpe : p = (k, e) := nodup_keys_unique hnd p hp (k, e) he hpk
          have hq2 : q ∈ m :=
            (mapErase_sublist m k).subset ((bgmEvictLoop_sublist fuel (mapErase m k)).subset hq)
          rw [hpe]
          exact hmin q hq2

/-- What the `newest` scan of vndb's eviction returns, relative to the full
victims list `full`: a valid index holding the largest `added` value seen,
which bounds the accumulator and every scanned element. -/
theorem newestScan_spec :
    ∀ (vs : List (String × Int)) (i : Nat) (best : Nat × Int) (full : List (String × Int)),
      full.drop i = vs →
      (∃ v, full[best.1]? = some v ∧ v.2 = best.2) →
      (∃ v, full[(newestScan vs i best).1]? = some v ∧ v.2 = (newestScan vs i best).2)
      ∧ best.2 ≤ (newestScan vs i best).2
      ∧ ∀ v ∈ vs, v.2 ≤ (newestScan vs i best).2
  | [], i, best, full => by
    intro hdrop hbest
    rw [newestScan]
    exact ⟨hbest, le_refl _, by simp⟩
  | v :: rest, i, best, full => by
    intro hdrop hbest
    have hvi : full[i]? = some v := by
      have h0 := List.getElem?_drop full i 0
      rw [hdrop] at h0
      simpa using h0.symm
    have hdrop2 : full.drop (i + 1) = rest := by
      have h1 := List.drop_drop 1 i full
      rw [hdrop] at h1
      simpa using h1.symm
    rw [newestScan]
    by_cases hlt : best.2 < v.2
    · rw [if_pos hlt]
      have ih := newestScan_spec rest (i + 1) (i, v.2) full hdrop2 ⟨v, hvi, rfl⟩
      refine ⟨ih.1, le_of_lt (lt_of_lt_of_le hlt ih.2.1), ?_⟩
      intro w hw
      rcases List.mem_cons.mp hw with h1 | h1
      · rw [h1]
        exact ih.2.1
      · exact ih.2.2 w h1
    · rw [if_neg hlt]
      have ih := newestScan_spec rest (i + 1) best full hdrop2 hbest
      refine ⟨ih.1, ih.2.1, ?_⟩
      intro w hw
      rcases List.mem_cons.mp hw with h1 | h1
      · rw [h1]
        exact le_trans (not_lt.mp hlt) ih.2.1
      · exact ih.2.2 w h1

/-- Replacing one position with a fresh element keeps a duplicate-free list
duplicate-free. -/
theorem nodup_set_of_not_mem {α : Type} :
    ∀ (l : List α) (j : Nat) (x : α), l.Nodup → x ∉ l → (l.set j x).Nodup
  | [], j, x, h, _ => by simp
  | a :: t, 0, x, h, hx => by
    rw [List.set_cons_zero]
    rcases List.nodup_cons.mp h with ⟨ha, ht⟩
    exact List.nodup_cons.mpr ⟨fun hmem => hx (List.mem_cons_of_mem _ hmem), ht⟩
  | a :: t, j + 1, x, h, hx => by
    rw [List.set_cons_succ]
    rcases List.nodup_cons.mp h with ⟨ha, ht⟩
    refine List.nodup_cons.mpr
      ⟨?_, nodup_set_of_not_mem t j x ht (fun hm => hx (List.mem_cons_of_mem _ hm))⟩
    intro hmem
    rcases List.mem_or_eq_of_mem_set hmem with h1 | h1
    · exact ha h1
    · exact hx (h1 ▸ List.mem_cons_self a t)

/-- An element that disappears when position `j` is overwritten was the
element at position `j`. -/
theorem getElem?_of_mem_not_mem_set {α : Type} :
    ∀ (l : List α) (j : Nat) (x y : α), y ∈ l → y ∉ l.set j x → l[j]? = some y
  | [], j, x, y, hy, _ => absurd hy (by simp)
  | a :: t, 0, x, y, hy, hns => by
    rw [List.set_cons_zero] at hns
    rcases List.mem_cons.mp hy with h1 | h1
    · rw [h1]
      exact List.getElem?_cons_zero
    · exact absurd (List.mem_cons_of_mem _ h1) hns
  | a :: t, j + 1, x, y, hy, hns => by
    rw [List.set_cons_succ] at hns
    rcases List.mem_cons.mp hy with h1 | h1
    · exact absurd (h1 ▸ List.mem_cons_self a _) hns
    · rw [List.getElem?_cons_succ]
      exact getElem?_of_mem_not_mem_set t j x y h1 (fun hm => hns (List.mem_cons_of_mem _ hm))

/-- A duplicate-free list contained in a list of no greater length covers
it. -/
theorem keys_cover {α : Type} {l1 l2 : List α} (h1 : l1.Nodup) (hsub : l1 ⊆ l2)
    (h2len : l2.length ≤ l1.length) : ∀ x ∈ l2, x ∈ l1 := by
  have hp := (h1.subperm hsub).perm_of_length_le h2len
  intro x hx
  exact hp.mem_iff.mpr hx

/-- The invariant of vndb's one-pass victim selection: walking `todo` with
victims `vs` collected from `done` maintains that the victims are `excess`
distinct entries of the processed prefix whose `added` values bound every
non-victim from below. -/
theorem vndbVictims_invariant (excess : Nat) :
    ∀ (todo done : List (String × cacheEntry)) (vs : List (String × Int)),
      ((done ++ todo).map Prod.fst).Nodup →
      vs.length = min done.length excess →
      (∀ v ∈ vs, ∃ e, (v.1, e) ∈ done ∧ e.added = v.2) →
      (vs.map Prod.fst).Nodup →
      (∀ p ∈ done, p.1 ∉ vs.map Prod.fst → ∀ v ∈ vs, v.2 ≤ p.2.added) →
      (todo.foldl (fun acc q => updateVictims excess acc q.1 q.2.added) vs).length
          = min (done ++ todo).length excess
      ∧ (∀ v ∈ todo.foldl (fun acc q => updateVictims excess acc q.1 q.2.added) vs,
          ∃ e, (v.1, e) ∈ done ++ todo ∧ e.added = v.2)
      ∧ ((todo.foldl (fun acc q => updateVictims excess acc q.1 q.2.added) vs).map Prod.fst).Nodup
      ∧ (∀ p ∈ done ++ todo,
          p.1 ∉ (todo.foldl (fun acc q => updateVictims excess acc q.1 q.2.added) vs).map Prod.fst →
          ∀ v ∈ todo.foldl (fun acc q => updateVictims excess acc q.1 q.2.added) vs, v.2 ≤ p.2.added)
  | [], done, vs => by
    intro hnd hlen hmem hvnd hmin
    simp only [List.foldl_nil, List.append_nil]
    exact ⟨hlen, hmem, hvnd, hmin⟩
  | p :: rest, done, vs => by
    intro hnd hlen hmem hvnd hmin
    have hassoc : done ++ p :: rest = (done ++ [p]) ++ rest := by simp
    rw [hassoc] at hnd ⊢
    rw [List.foldl_cons]
    have hpfresh : p.1 ∉ done.map Prod.fst := by
      intro hmemk
      have h2 : ((done ++ [p]).map Prod.fst).Nodup :=
        nodup_keys_sublist ((List.sublist_append_left _ _)) hnd
      rw [List.map_append] at h2
      rcases (List.nodup_append.mp h2) with ⟨-, -, hdisj⟩
      exact hdisj hmemk (by simp)
    have hvfresh : p.1 ∉ vs.map Prod.fst := by
      intro hk
      rcases List.mem_map.mp hk with ⟨v, hv, hv1⟩
      obtain ⟨e, he, -⟩ := hmem v hv
      exact hpfresh (hv1 ▸ List.mem_map_of_mem Prod.fst he)
    -- the new victims list after processing p
    by_cases hfull : vs.length < excess
    · -- append case: every processed entry is currently a victim
      have hvs' : updateVictims excess vs p.1 p.2.added = vs ++ [(p.1, p.2.added)] := by
        rw [updateVictims.eq_def, if_pos hfull]
      rw [hvs']
      have hdl : vs.length = done.length := by omega
      apply vndbVictims_invariant excess rest (done ++ [p]) (vs ++ [(p.1, p.2.added)]) hnd
      · simp only [List.length_append, List.length_cons, List.length_nil, min_def]
        split <;> omega
      · intro v hv
        rcases List.mem_append.mp hv with h1 | h1
        · obtain ⟨e, he, hea⟩ := hmem v h1
          exact ⟨e, List.mem_append_left _ he, hea⟩
        · have h2 : v = (p.1, p.2.added) := by simpa using h1
          exact ⟨p.2, by rw [h2]; exact ⟨List.mem_append_right _ (by simp), rfl⟩⟩
      · rw [List.map_append]
        refine hvnd.append (by simp) ?_
        intro x hx hx2
        have h2 : x = p.1 := by simpa using hx2
        exact hvfresh (h2 ▸ hx)
      · -- all keys of done ++ [p] are victim keys now
        intro q hq hqk
        exfalso
        apply hqk
        rw [List.map_append]
        rcases List.mem_append.mp hq with h1 | h1
        · -- q ∈ done: its key is among the old victims because vs covers done
          apply List.mem_append_left
          have hsubk : vs.map Prod.fst ⊆ done.map Prod.fst := by
            intro x hx
            rcases List.mem_map.mp hx with ⟨v, hv, hv1⟩
            obtain ⟨e, he, -⟩ := hmem v hv
            exact hv1 ▸ List.mem_map_of_mem Prod.fst he
          have hdnd : (done.map Prod.fst).Nodup := by
            have h2 : ((done ++ [p]).map Prod.fst).Nodup :=
              nodup_keys_sublist (List.sublist_append_left _ _) hnd
            rw [List.map_append] at h2
            exact (List.nodup_append.mp h2).1
          have hcov := keys_cover hvnd hsubk
            (by rw [List.length_map, List.length_map, ← hdl])
          exact hcov q.1 (List.mem_map_of_mem Prod.fst h1)
        · have h2 : q = p := by simpa using h1
          apply List.mem_append_right
          simp [h2]
    · -- the victims list is full: length = excess
      have hvlen : vs.length = excess := by omega
      have hdlen : excess ≤ done.length := by omega
      cases hvs : vs with
      | nil =>
        subst hvs
        have hex0 : excess = 0 := by simpa using hvlen.symm
        have hvs' : updateVictims excess [] p.1 p.2.added = [] := by
          rw [updateVictims.eq_def, if_neg (by rw [hex0]; simp)]
        rw [hvs']
        apply vndbVictims_invariant excess rest (done ++ [p]) [] hnd
        · simp only [List.length_nil, min_def]
          split <;> omega
        · intro v hv
          cases hv
        · simp
        · intro q hq hqk v hv
          cases hv
      | cons w ws =>
        subst hvs
        have hscan := newestScan_spec ws 1 (0, w.2) (w :: ws) rfl ⟨w, by simp, rfl⟩
        obtain ⟨⟨v0, hv0, hv0val⟩, hwle, hwsle⟩ := hscan
        have hallle : ∀ v ∈ w :: ws, v.2 ≤ (newestScan ws 1 (0, w.2)).2 := by
          intro v hv
          rcases List.mem_cons.mp hv with h1 | h1
          · rw [h1]
            exact hwle
          · exact hwsle v h1
        have hjlt : (newestScan ws 1 (0, w.2)).1 < (w :: ws).length := by
          rcases List.getElem?_eq_some.mp hv0 with ⟨hlt2, -⟩
          exact hlt2
        have hv0mem : v0 ∈ w :: ws := List.getElem?_mem hv0
        -- the entry of done behind the newest victim
        obtain ⟨e0, he0, he0a⟩ := hmem v0 hv0mem
        by_cases hrep : p.2.added < (newestScan ws 1 (0, w.2)).2
        · -- replace the newest victim with p
          have hvs' : updateVictims excess (w :: ws) p.1 p.2.added
              = (w :: ws).set (newestScan ws 1 (0, w.2)).1 (p.1, p.2.added) := by
            rw [updateVictims.eq_def, if_neg hfull]
            simp only [hrep, if_true]
          rw [hvs']
          apply vndbVictims_invariant excess rest (done ++ [p])
            ((w :: ws).set (newestScan ws 1 (0, w.2)).1 (p.1, p.2.added)) hnd
          · rw [List.length_set]
            have hminr : min (done ++ [p]).length excess = excess :=
              min_eq_right (by simp only [List.length_append, List.length_cons,
                List.length_nil]; omega)
            rw [hminr]
            exact hvlen
          · intro v hv
            rcases List.mem_or_eq_of_mem_set hv with h1 | h1
            · obtain ⟨e, he, hea⟩ := hmem v h1
              exact ⟨e, List.mem_append_left _ he, hea⟩
            · refine ⟨p.2, ?_, by rw [h1]⟩
              rw [h1]
              exact List.mem_append_right _ (by simp)
          · rw [List.map_set]
            exact nodup_set_of_not_mem _ _ _ hvnd (by simpa using hvfresh)
          · -- every non-victim of the new prefix is bounded below
            intro q hq hqk v hv
            rw [List.map_set] at hqk
            have hvbound : ∀ u ∈ (w :: ws).set (newestScan ws 1 (0, w.2)).1 (p.1, p.2.added),
                u.2 ≤ (newestScan ws 1 (0, w.2)).2 := by
              intro u hu
              rcases List.mem_or_eq_of_mem_set hu with h1 | h1
              · exact hallle u h1
              · rw [h1]
                exact le_of_lt hrep
            rcases List.mem_append.mp hq with h1 | h1
            · by_cases hqv : q.1 ∈ (w :: ws).map Prod.fst
              · -- q's key was a victim key and is no longer: q is the replaced entry
                have hkey : ((w :: ws).map Prod.fst)[(newestScan ws 1 (0, w.2)).1]? = some q.1 :=
                  getElem?_of_mem_not_mem_set ((w :: ws).map Prod.fst)
                    (newestScan ws 1 (0, w.2)).1 p.1 q.1 hqv (fun hmem2 => hqk hmem2)
                -- the element at the newest index is v0, so q.1 = v0.1
                have hv0key : ((w :: ws).map Prod.fst)[(newestScan ws 1 (0, w.2)).1]?
                    = some v0.1 := by
                  rw [List.getElem?_map, hv0]
                  rfl
                have hq1 : q.1 = v0.1 := by
                  rw [hv0key] at hkey
                  exact (Option.some.inj hkey).symm
                have hqe : q = (v0.1, e0) := by
                  have hdnd2 : ((done ++ [p]).map Prod.fst).Nodup :=
                    nodup_keys_sublist (List.sublist_append_left _ _) hnd
                  exact nodup_keys_unique hdnd2 q (List.mem_append_left _ h1) (v0.1, e0)
                    (List.mem_append_left _ he0) hq1
                have hqadded : q.2.added = (newestScan ws 1 (0, w.2)).2 := by
                  rw [hqe]
                  rw [he0a, hv0val]
                rw [hqadded]
                exact hvbound v hv
              · -- q was already a non-victim: its added bounds the old max
                have hold := hmin q h1 hqv
                have hmax : (newestScan ws 1 (0, w.2)).2 ≤ q.2.added := by
                  have h5 := hold v0 hv0mem
                  rw [hv0val] at h5
                  exact h5
                exact le_trans (hvbound v hv) hmax
            · -- q = p itself: but p's key is now a victim key
              exfalso
              apply hqk
              have h2 : q = p := by simpa using h1
              rw [h2]
              exact List.mem_set ((w :: ws).map Prod.fst) (newestScan ws 1 (0, w.2)).1
                (by rw [List.length_map]; exact hjlt) p.1
        · -- keep the victims: p is a new non-victim, at least as new as the max
          have hvs' : updateVictims excess (w :: ws) p.1 p.2.added = w :: ws := by
            rw [updateVictims.eq_def, if_neg hfull]
            simp only [hrep, if_false]
          rw [hvs']
          apply vndbVictims_invariant excess rest (done ++ [p]) (w :: ws) hnd
          · have hminr : min (done ++ [p]).length excess = excess :=
              min_eq_right (by simp only [List.length_append, List.length_cons,
                List.length_nil]; omega)
            rw [hminr]
            exact hvlen
          · intro v hv
            obtain ⟨e, he, hea⟩ := hmem v hv
            exact ⟨e, List.mem_append_left _ he, hea⟩
          · exact hvnd
          · intro q hq hqk v hv
            rcases List.mem_append.mp hq with h1 | h1
            · exact hmin q h1 hqk v hv
            · have h2 : q = p := by simpa using h1
              rw [h2]
              exact le_trans (hallle v hv) (not_lt.mp hrep)

/-- What vndb's one-pass victim selection produces on a whole map with
distinct keys: `min m.length excess` victims drawn from the map, with
distinct keys, whose `added` values never exceed any non-victim's. -/
theorem vndbSelectVictims_spec (m : CacheMap) (excess : Nat)
    (hnd : (m.map Prod.fst).Nodup) :
    (vndbSelectVictims excess m).length = min m.length excess
    ∧ (∀ v ∈ vndbSelectVictims excess m, ∃ e, (v.1, e) ∈ m ∧ e.added = v.2)
    ∧ ((vndbSelectVictims excess m).map Prod.fst).Nodup
    ∧ (∀ p ∈ m, p.1 ∉ (vndbSelectVictims excess m).map Prod.fst →
        ∀ v ∈ vndbSelectVictims excess m, v.2 ≤ p.2.added) := by
  have h := vndbVictims_invariant excess m [] [] (by simpa using hnd) (by simp)
    (by simp) (by simp) (by simp)
  simpa [vndbSelectVictims] using h

/-- Deleting a batch of keys one by one is one filter over the key list. -/
theorem foldl_mapErase_eq_filter :
    ∀ (vs : List (String × Int)) (m : CacheMap),
      vs.foldl (fun acc v => mapErase acc v.1) m
        = m.filter (fun p => !((vs.map Prod.fst).contains p.1))
  | [], m => by
    rw [List.foldl_nil]
    symm
    apply List.filter_eq_self.mpr
    intro p hp
    simp
  | v :: rest, m => by
    rw [List.foldl_cons, foldl_mapErase_eq_filter rest (mapErase m v.1), mapErase,
      List.filter_filter]
    apply List.filter_congr
    intro p hp
    simp only [List.map_cons, List.contains_cons, Bool.not_or]
    rw [Bool.and_comm]

/-- Filtering out a duplicate-free batch of present keys removes exactly
one entry per key. -/
theorem length_filter_out_keys :
    ∀ (m : CacheMap) (ks : List String), (m.map Prod.fst).Nodup → ks.Nodup →
      (∀ x ∈ ks, x ∈ m.map Prod.fst) →
      (m.filter (fun p => !(ks.contains p.1))).length = m.length - ks.length
  | [], ks, _, _, hsub => by
    cases ks with
    | nil => rfl
    | cons k kt =>
      exfalso
      have := hsub k (List.mem_cons_self _ _)
      simp at this
  | p :: rest, ks, hnd, hknd, hsub => by
    have hr : p.1 ∉ rest.map Prod.fst := (List.nodup_cons.mp hnd).1
    have hnd2 : (rest.map Prod.fst).Nodup := (List.nodup_cons.mp hnd).2
    have hklen : ks.length ≤ (p :: rest).length := by
      have h2 := (hknd.subperm hsub).length_le
      rw [List.length_map] at h2
      exact h2
    rw [List.filter_cons]
    by_cases hpk : p.1 ∈ ks
    · have hcont : (!(ks.contains p.1)) = false := by simp [hpk]
      rw [hcont]
      simp only [Bool.false_eq_true, if_false]
      have hcong : rest.filter (fun q => !(ks.contains q.1))
          = rest.filter (fun q => !((ks.erase p.1).contains q.1)) := by
        apply List.filter_congr
        intro q hq
        have hq1 : q.1 ≠ p.1 := fun he => hr (he ▸ List.mem_map_of_mem Prod.fst hq)
        have hiff : q.1 ∈ ks ↔ q.1 ∈ ks.erase p.1 := by
          rw [hknd.mem_erase_iff]
          exact ⟨fun h2 => ⟨hq1, h2⟩, fun h2 => h2.2⟩
        by_cases hqk : q.1 ∈ ks
        · simp [hqk, hiff.mp hqk]
        · have h3 : q.1 ∉ ks.erase p.1 := fun h2 => hqk (hiff.mpr h2)
          simp [hqk, h3]
      rw [hcong]
      have hsub2 : ∀ x ∈ ks.erase p.1, x ∈ rest.map Prod.fst := by
        intro x hx
        rcases (hknd.mem_erase_iff.mp hx) with ⟨hne, hxk⟩
        have h4 := hsub x hxk
        rw [List.map_cons] at h4
        rcases List.mem_cons.mp h4 with h1 | h1
        · exact absurd h1 hne
        · exact h1
      have ih := length_filter_out_keys rest (ks.erase p.1) hnd2 (hknd.erase p.1) hsub2
      rw [ih]
      have hlenerase : (ks.erase p.1).length + 1 = ks.length := by
        have := List.length_erase_of_mem hpk
        have hpos : 1 ≤ ks.length := by
          cases ks with
          | nil => cases hpk
          | cons a t => simp
        omega
      simp only [List.length_cons]
      rw [← hlenerase]
      omega
    · have hcont : (!(ks.contains p.1)) = true := by simp [hpk]
      rw [hcont]
      simp only [if_true]
      have hsub2 : ∀ x ∈ ks, x ∈ rest.map Prod.fst := by
        intro x hx
        have h4 := hsub x hx
        rw [List.map_cons] at h4
        rcases List.mem_cons.mp h4 with h1 | h1
        · exact absurd (h1 ▸ hx) hpk
        · exact h1
      have ih := length_filter_out_keys rest ks hnd2 hknd hsub2
      have hklen2 : ks.length ≤ rest.length := by
        have h2 := (hknd.subperm hsub2).length_le
        rw [List.length_map] at h2
        exact h2
      simp only [List.length_cons]
      rw [ih]
      omega

/-- The three eviction-policy facts for vndb's `evictOverflowLocked`: it
only removes entries, it stops exactly at the capacity bound, and every
entry it removes is at least as old as every entry it keeps. -/
theorem vndbEvictOverflow_spec (m : CacheMap) (hnd : (m.map Prod.fst).Nodup) :
    (vndbEvictOverflow m).Sublist m
    ∧ (vndbEvictOverflow m).length = min m.length vndbCacheMaxEntries
    ∧ (∀ p ∈ m, p ∉ vndbEvictOverflow m → ∀ q ∈ vndbEvictOverflow m, p.2.added ≤ q.2.added) := by
  rw [vndbEvictOverflow]
  by_cases hlen : m.length ≤ vndbCacheMaxEntries
  · rw [if_pos hlen]
    refine ⟨List.Sublist.refl m, by rw [min_eq_left hlen], ?_⟩
    intro p hp hnp
    exact absurd hp hnp
  · rw [if_neg hlen]
    obtain ⟨hvlen, hvmem, hvnd, hvmin⟩ :=
      vndbSelectVictims_spec m (m.length - vndbCacheMaxEntries) hnd
    rw [foldl_mapErase_eq_filter]
    have hvsub : ∀ x ∈ (vndbSelectVictims (m.length - vndbCacheMaxEntries) m).map Prod.fst,
        x ∈ m.map Prod.fst := by
      intro x hx
      rcases List.mem_map.mp hx with ⟨v, hv, hv1⟩
      obtain ⟨e, he, -⟩ := hvmem v hv
      exact hv1 ▸ List.mem_map_of_mem Prod.fst he
    refine ⟨List.filter_sublist m, ?_, ?_⟩
    · rw [length_filter_out_keys m _ hnd hvnd hvsub]
      rw [List.length_map, hvlen]
      have hexle : m.length - vndbCacheMaxEntries ≤ m.length := Nat.sub_le _ _
      rw [min_eq_right hexle, min_eq_right (le_of_not_le hlen)]
      omega
    · intro p hp hnp q hq
      have hpk : p.1 ∈ (vndbSelectVictims (m.length - vndbCacheMaxEntries) m).map Prod.fst := by
        by_contra hnk
        apply hnp
        rw [List.mem_filter]
        refine ⟨hp, by simpa using hnk⟩
      rcases List.mem_map.mp hpk with ⟨v, hv, hv1⟩
      obtain ⟨e, he, hea⟩ := hvmem v hv
      have hpe : p = (v.1, e) := nodup_keys_unique hnd p hp (v.1, e) he hv1.symm
      have hq2 := List.mem_filter.mp hq
      have hqk : q.1 ∉ (vndbSelectVictims (m.length - vndbCacheMaxEntries) m).map Prod.fst := by
        have := hq2.2
        simpa using this
      have hbound := hvmin q hq2.1 hqk v hv
      rw [hpe]
      calc e.added = v.2 := hea
        _ ≤ q.2.added := hbound

/-- Looking up a key that is not in the map misses. -/
theorem mapGet_of_not_mem {m : CacheMap} {k : String}
    (h : k ∉ m.map Prod.fst) : mapGet m k = none := by
  unfold mapGet
  have hfind : m.find? (fun p => p.1 == k) = none := by
    apply List.find?_eq_none.mpr
    intro p hp
    have h2 : p.1 ≠ k := fun he => h (he ▸ List.mem_map_of_mem Prod.fst hp)
    simp [h2]
  rw [hfind]
  rfl

/-- Writing a fresh key appends the entry. -/
theorem mapInsert_of_not_mem {m : CacheMap} {k : String}
    (h : k ∉ m.map Prod.fst) (v : cacheEntry) : mapInsert m k v = m ++ [(k, v)] := by
  unfold mapInsert
  have hfind : m.find? (fun p => p.1 == k) = none := by
    apply List.find?_eq_none.mpr
    intro p hp
    have h2 : p.1 ≠ k := fun he => h (he ▸ List.mem_map_of_mem Prod.fst hp)
    simp [h2]
  rw [hfind]
  simp

/-- Pruning removes nothing while every entry is unexpired. -/
theorem pruneExpired_id (m : CacheMap) (now : Int)
    (h : ∀ p ∈ m, now < p.2.expire) : pruneExpired m now = m := by
  apply List.filter_eq_self.mpr
  intro p hp
  simp [h p hp]

/-- The oldest-entry scan keeps its accumulator when nothing beats it. -/
theorem findOldestAux_const :
    ∀ (rest : CacheMap) (k : String) (a : Int), (∀ q ∈ rest, ¬ q.2.added < a) →
      findOldestAux (some (k, a)) rest = some (k, a)
  | [], _, _, _ => rfl
  | q :: rest, k, a, h => by
    rw [findOldestAux, if_neg (h q (List.mem_cons_self _ _))]
    exact findOldestAux_const rest k a (fun q2 hq2 => h q2 (List.mem_cons_of_mem _ hq2))

/-- When the head entry is oldest, it is the eviction victim. -/
theorem findOldest_head {p : String × cacheEntry} {rest : CacheMap}
    (h : ∀ q ∈ rest, ¬ q.2.added < p.2.added) :
    findOldest (p :: rest) = some p.1 := by
  rw [findOldest, findOldestAux, findOldestAux_const rest p.1 p.2.added h]
  rfl

/-- Erasing the head key of a map with distinct keys drops the head. -/
theorem mapErase_cons_head {p : String × cacheEntry} {rest : CacheMap}
    (h : p.1 ∉ rest.map Prod.fst) : mapErase (p :: rest) p.1 = rest := by
  rw [mapErase, List.filter_cons]
  simp only [beq_self_eq_true, Bool.not_true, Bool.false_eq_true, if_false]
  apply List.filter_eq_self.mpr
  intro q hq
  have h2 : q.1 ≠ p.1 := fun he => h (he ▸ List.mem_map_of_mem Prod.fst hq)
  simp [h2]

/-- Below the capacity bound the eviction loop is the identity. -/
theorem bgmEvictLoop_id :
    ∀ (fuel : Nat) (m : CacheMap), m.length ≤ cacheMaxEntries → bgmEvictLoop fuel m = m
  | 0, m, _ => by rw [bgmEvictLoop]
  | fuel + 1, m, h => by rw [bgmEvictLoop, if_pos h]

/-- `entryOf` keeps the fingerprint in the first component. -/
theorem keys_map_entryOf (ttl : Int) (ds : List (String × Payload × Int)) :
    (ds.map (entryOf ttl)).map Prod.fst = ds.map Prod.fst := by
  rw [List.map_map]
  rfl

/-- Dropping the overflow of a full window after appending one element is
the same as appending first and dropping then. -/
theorem drop_insert_slide {α : Type} (done : List α) (p : α) (cap : Nat) (hcap : 0 < cap) :
    (done.drop (done.length - cap) ++ [p]).drop
        ((done.drop (done.length - cap) ++ [p]).length - cap)
      = (done ++ [p]).drop ((done ++ [p]).length - cap) := by
  by_cases hc : done.length ≤ cap
  · have h0 : done.length - cap = 0 := by omega
    rw [h0, List.drop_zero]
  · have hlenL : (done.drop (done.length - cap) ++ [p]).length - cap = 1 := by
      simp only [List.length_append, List.length_drop, List.length_cons, List.length_nil]
      omega
    have hlenR : (done ++ [p]).length - cap = done.length - cap + 1 := by
      simp only [List.length_append, List.length_cons, List.length_nil]
      omega
    rw [hlenL, hlenR]
    rw [List.drop_append_of_le_length (by simp only [List.length_drop]; omega)]
    rw [List.drop_append_of_le_length (by omega)]
    rw [List.drop_drop]

/-- bangumi's eviction on a window of at most one entry over the cap,
sorted oldest-first: it drops the overflow from the front. -/
theorem bgmEvictOverflow_map_sorted (ds : List (String × Payload × Int)) (ttl : Int)
    (hnd : (ds.map Prod.fst).Nodup) (hpair : List.Pairwise (fun a b => a.2.2 < b.2.2) ds)
    (hlen : ds.length ≤ cacheMaxEntries + 1) :
    bgmEvictOverflow (ds.map (entryOf ttl))
      = (ds.drop (ds.length - cacheMaxEntries)).map (entryOf ttl) := by
  by_cases hc : ds.length ≤ cacheMaxEntries
  · rw [bgmEvictOverflow, bgmEvictLoop_id _ _ (by rw [List.length_map]; exact hc)]
    rw [Nat.sub_eq_zero_of_le hc, List.drop_zero]
  · have hlen2 : ds.length = cacheMaxEntries + 1 := by omega
    cases ds with
    | nil => simp [cacheMaxEntries] at hlen2
    | cons d0 dtail =>
      have htaillen : dtail.length = cacheMaxEntries := by
        simp only [List.length_cons] at hlen2
        omega
      have hd0fresh : (entryOf ttl d0).1 ∉ (dtail.map (entryOf ttl)).map Prod.fst := by
        rw [keys_map_entryOf]
        exact (List.nodup_cons.mp (by simpa using hnd)).1
      have hmin : ∀ q ∈ dtail.map (entryOf ttl), ¬ q.2.added < (entryOf ttl d0).2.added := by
        intro q hq
        rcases List.mem_map.mp hq with ⟨d, hd, hdq⟩
        have hlt := (List.pairwise_cons.mp hpair).1 d hd
        rw [← hdq]
        simp only [entryOf]
        omega
      rw [bgmEvictOverflow]
      show bgmEvictLoop ((dtail.map (entryOf ttl)).length + 1)
        (entryOf ttl d0 :: dtail.map (entryOf ttl)) = _
      rw [bgmEvictLoop]
      rw [if_neg (by
        simp only [List.length_cons, List.length_map]
        omega)]
      rw [findOldest_head hmin]
      show bgmEvictLoop ((dtail.map (entryOf ttl)).length)
        (mapErase (entryOf ttl d0 :: dtail.map (entryOf ttl)) (entryOf ttl d0).1) = _
      rw [mapErase_cons_head hd0fresh]
      rw [bgmEvictLoop_id _ _ (by rw [List.length_map]; omega)]
      have hdrop : (d0 :: dtail).length - cacheMaxEntries = 1 := by
        simp only [List.length_cons]
        omega
      rw [hdrop]
      rw [List.drop_one, List.tail_cons]

/-- vndb's one-pass selection with a single-victim budget sticks to its
first candidate while nothing older appears. -/
theorem vndbVictims_single :
    ∀ (rest : CacheMap) (k0 : String) (a0 : Int), (∀ q ∈ rest, ¬ q.2.added < a0) →
      rest.foldl (fun acc q => updateVictims 1 acc q.1 q.2.added) [(k0, a0)] = [(k0, a0)]
  | [], _, _, _ => rfl
  | q :: rest, k0, a0, h => by
    rw [List.foldl_cons]
    have hupd : updateVictims 1 [(k0, a0)] q.1 q.2.added = [(k0, a0)] := by
      rw [updateVictims.eq_def, if_neg (by simp)]
      show (if q.2.added < a0 then [(k0, a0)].set 0 (q.1, q.2.added) else [(k0, a0)]) = [(k0, a0)]
      rw [if_neg (h q (List.mem_cons_self _ _))]
    rw [hupd]
    exact vndbVictims_single rest k0 a0 (fun q2 hq2 => h q2 (List.mem_cons_of_mem _ hq2))

/-- vndb's eviction on a window of at most one entry over the cap, sorted
oldest-first: it drops the overflow from the front. -/
theorem vndbEvictOverflow_map_sorted (ds : List (String × Payload × Int)) (ttl : Int)
    (hnd : (ds.map Prod.fst).Nodup) (hpair : List.Pairwise (fun a b => a.2.2 < b.2.2) ds)
    (hlen : ds.length ≤ vndbCacheMaxEntries + 1) :
    vndbEvictOverflow (ds.map (entryOf ttl))
      = (ds.drop (ds.length - vndbCacheMaxEntries)).map (entryOf ttl) := by
  rw [vndbEvictOverflow]
  by_cases hc : ds.length ≤ vndbCacheMaxEntries
  · rw [if_pos (by rw [List.length_map]; exact hc)]
    rw [Nat.sub_eq_zero_of_le hc, List.drop_zero]
  · rw [if_neg (by rw [List.length_map]; exact hc)]
    have hlen2 : ds.length = vndbCacheMaxEntries + 1 := by omega
    cases ds with
    | nil => simp [vndbCacheMaxEntries] at hlen2
    | cons d0 dtail =>
      have htaillen : dtail.length = vndbCacheMaxEntries := by
        simp only [List.length_cons] at hlen2
        omega
      have hexcess : (List.map (entryOf ttl) (d0 :: dtail)).length - vndbCacheMaxEntries = 1 := by
        simp only [List.length_map, List.length_cons]
        omega
      rw [hexcess]
      rw [vndbSelectVictims, List.map_cons, List.foldl_cons]
      have h1 : updateVictims 1 [] (entryOf ttl d0).1 (entryOf ttl d0).2.added
          = [(d0.1, d0.2.2)] := by
        rw [updateVictims.eq_def, if_pos (by simp)]
        rfl
      rw [h1]
      have hmin : ∀ q ∈ dtail.map (entryOf ttl), ¬ q.2.added < d0.2.2 := by
        intro q hq
        rcases List.mem_map.mp hq with ⟨d, hd, hdq⟩
        have hlt := (List.pairwise_cons.mp hpair).1 d hd
        rw [← hdq]
        simp only [entryOf]
        omega
      rw [vndbVictims_single (dtail.map (entryOf ttl)) d0.1 d0.2.2 hmin]
      rw [List.foldl_cons, List.foldl_nil]
      have hd0fresh : (entryOf ttl d0).1 ∉ (dtail.map (entryOf ttl)).map Prod.fst := by
        rw [keys_map_entryOf]
        exact (List.nodup_cons.mp (by simpa using hnd)).1
      have herase : mapErase (entryOf ttl d0 :: dtail.map (entryOf ttl)) d0.1
          = dtail.map (entryOf ttl) := mapErase_cons_head hd0fresh
      have hdrop1 : (d0 :: dtail).length - vndbCacheMaxEntries = 1 := by
        simp only [List.length_cons]
        omega
      rw [herase, hdrop1]
      rw [List.drop_one, List.tail_cons]

/-- Running a batch of fresh-fingerprint posts against the bangumi cache
keeps exactly the most recent `cacheMaxEntries` inserts: the cache after
processing `todo` on top of the window left by `done` is the window of
`done ++ todo`. -/
theorem bgmRunPosts_window :
    ∀ (todo done : List (String × Payload × Int)),
      ((done ++ todo).map Prod.fst).Nodup →
      List.Pairwise (fun a b => a.2.2 < b.2.2) (done ++ todo) →
      (∀ a ∈ done ++ todo, ∀ b ∈ done ++ todo, b.2.2 < a.2.2 + cacheTTL) →
      bgmRunPosts todo ((done.drop (done.length - cacheMaxEntries)).map (entryOf cacheTTL))
        = ((done ++ todo).drop ((done ++ todo).length - cacheMaxEntries)).map (entryOf cacheTTL)
  | [], done => by
    intro _ _ _
    rw [bgmRunPosts, List.foldl_nil, List.append_nil]
  | p :: rest, done => by
    intro hnd hpair hwin
    have hassoc : done ++ p :: rest = (done ++ [p]) ++ rest := by simp
    have hds_sub : (done.drop (done.length - cacheMaxEntries) ++ [p]).Sublist
        (done ++ p :: rest) :=
      (List.drop_sublist _ _).append ((List.nil_sublist rest).cons₂ p)
    have hnd_ds : ((done.drop (done.length - cacheMaxEntries) ++ [p]).map Prod.fst).Nodup :=
      (hds_sub.map Prod.fst).nodup hnd
    have hpair_ds := hpair.sublist hds_sub
    have hfreshdone : p.1 ∉ done.map Prod.fst := by
      intro hk
      rw [hassoc, List.map_append] at hnd
      rcases List.nodup_append.mp hnd with ⟨h1, -, -⟩
      rw [List.map_append] at h1
      rcases List.nodup_append.mp h1 with ⟨-, -, hdisj2⟩
      exact hdisj2 hk (by simp)
    have hfreshcache : p.1 ∉
        (((done.drop (done.length - cacheMaxEntries)).map (entryOf cacheTTL)).map Prod.fst) := by
      rw [keys_map_entryOf]
      intro hk
      exact hfreshdone (((List.drop_sublist _ _).map Prod.fst).subset hk)
    have hstep : bgmRunPosts (p :: rest)
        ((done.drop (done.length - cacheMaxEntries)).map (entryOf cacheTTL))
        = bgmRunPosts rest
          ((bgmCachedPost ((done.drop (done.length - cacheMaxEntries)).map (entryOf cacheTTL))
            p.1 p.2.2 (.ok p.2.1) p.2.2).2.1) := by
      rw [bgmRunPosts, bgmRunPosts, List.foldl_cons]
    rw [hstep]
    have hget : cacheGet ((done.drop (done.length - cacheMaxEntries)).map (entryOf cacheTTL))
        p.1 p.2.2
        = (none, (done.drop (done.length - cacheMaxEntries)).map (entryOf cacheTTL)) :=
      cacheGet_of_absent _ _ _ (mapGet_of_not_mem hfreshcache)
    have hpost : ((bgmCachedPost ((done.drop (done.length - cacheMaxEntries)).map
        (entryOf cacheTTL)) p.1 p.2.2 (.ok p.2.1) p.2.2).2.1)
        = bgmStore ((done.drop (done.length - cacheMaxEntries)).map (entryOf cacheTTL))
          p.1 p.2.1 p.2.2 := by
      unfold bgmCachedPost
      rw [hget]
    rw [hpost]
    have hins : mapInsert ((done.drop (done.length - cacheMaxEntries)).map (entryOf cacheTTL))
        p.1 { data := p.2.1, expire := p.2.2 + cacheTTL, added := p.2.2 }
        = ((done.drop (done.length - cacheMaxEntries)) ++ [p]).map (entryOf cacheTTL) := by
      rw [mapInsert_of_not_mem hfreshcache, List.map_append]
      rfl
    have hpr : pruneExpired
        (((done.drop (done.length - cacheMaxEntries)) ++ [p]).map (entryOf cacheTTL)) p.2.2
        = ((done.drop (done.length - cacheMaxEntries)) ++ [p]).map (entryOf cacheTTL) := by
      apply pruneExpired_id
      intro q hq
      rcases List.mem_map.mp hq with ⟨d, hd, hdq⟩
      have hdmem : d ∈ done ++ p :: rest := hds_sub.subset hd
      have hpmem : p ∈ done ++ p :: rest := by simp
      have hw := hwin d hdmem p hpmem
      rw [← hdq]
      simp only [entryOf]
      omega
    have hlen_ds : (done.drop (done.length - cacheMaxEntries) ++ [p]).length
        ≤ cacheMaxEntries + 1 := by
      simp only [List.length_append, List.length_drop, List.length_cons, List.length_nil]
      omega
    have hev := bgmEvictOverflow_map_sorted
      (done.drop (done.length - cacheMaxEntries) ++ [p]) cacheTTL hnd_ds hpair_ds hlen_ds
    have hstore : bgmStore ((done.drop (done.length - cacheMaxEntries)).map (entryOf cacheTTL))
        p.1 p.2.1 p.2.2
        = ((done ++ [p]).drop ((done ++ [p]).length - cacheMaxEntries)).map (entryOf cacheTTL) := by
      rw [bgmStore, hins, hpr, hev]
      rw [drop_insert_slide done p cacheMaxEntries (by norm_num [cacheMaxEntries])]
    rw [hstore]
    have hnd2 : (((done ++ [p]) ++ rest).map Prod.fst).Nodup := by
      rw [← hassoc]
      exact hnd
    have hpair2 : List.Pairwise (fun a b => a.2.2 < b.2.2) ((done ++ [p]) ++ rest) := by
      rw [← hassoc]
      exact hpair
    have hwin2 : ∀ a ∈ (done ++ [p]) ++ rest, ∀ b ∈ (done ++ [p]) ++ rest,
        b.2.2 < a.2.2 + cacheTTL := by
      rw [← hassoc]
      exact hwin
    rw [bgmRunPosts_window rest (done ++ [p]) hnd2 hpair2 hwin2, ← hassoc]

/-- The same window fact for the vndb cache. -/
theorem vndbRunPosts_window :
    ∀ (todo done : List (String × Payload × Int)),
      ((done ++ todo).map Prod.fst).Nodup →
      List.Pairwise (fun a b => a.2.2 < b.2.2) (done ++ todo) →
      (∀ a ∈ done ++ todo, ∀ b ∈ done ++ todo, b.2.2 < a.2.2 + vndbCacheTTL) →
      vndbRunPosts todo
          ((done.drop (done.length - vndbCacheMaxEntries)).map (entryOf vndbCacheTTL))
        = ((done ++ todo).drop ((done ++ todo).length - vndbCacheMaxEntries)).map
            (entryOf vndbCacheTTL)
  | [], done => by
    intro _ _ _
    rw [vndbRunPosts, List.foldl_nil, List.append_nil]
  | p :: rest, done => by
    intro hnd hpair hwin
    have hassoc : done ++ p :: rest = (done ++ [p]) ++ rest := by simp
    have hds_sub : (done.drop (done.length - vndbCacheMaxEntries) ++ [p]).Sublist
        (done ++ p :: rest) :=
      (List.drop_sublist _ _).append ((List.nil_sublist rest).cons₂ p)
    have hnd_ds : ((done.drop (done.length - vndbCacheMaxEntries) ++ [p]).map Prod.fst).Nodup :=
      (hds_sub.map Prod.fst).nodup hnd
    have hpair_ds := hpair.sublist hds_sub
    have hfreshdone : p.1 ∉ done.map Prod.fst := by
      intro hk
      rw [hassoc, List.map_append] at hnd
      rcases List.nodup_append.mp hnd with ⟨h1, -, -⟩
      rw [List.map_append] at h1
      rcases List.nodup_append.mp h1 with ⟨-, -, hdisj2⟩
      exact hdisj2 hk (by simp)
    have hfreshcache : p.1 ∉
        (((done.drop (done.length - vndbCacheMaxEntries)).map
          (entryOf vndbCacheTTL)).map Prod.fst) := by
      rw [keys_map_entryOf]
      intro hk
      exact hfreshdone (((List.drop_sublist _ _).map Prod.fst).subset hk)
    have hstep : vndbRunPosts (p :: rest)
        ((done.drop (done.length - vndbCacheMaxEntries)).map (entryOf vndbCacheTTL))
        = vndbRunPosts rest
          ((vndbCachedPost ((done.drop (done.length - vndbCacheMaxEntries)).map
            (entryOf vndbCacheTTL)) p.1 p.2.2 (.ok p.2.1) p.2.2).2.1) := by
      rw [vndbRunPosts, vndbRunPosts, List.foldl_cons]
    rw [hstep]
    have hget : cacheGet ((done.drop (done.length - vndbCacheMaxEntries)).map
        (entryOf vndbCacheTTL)) p.1 p.2.2
        = (none, (done.drop (done.length - vndbCacheMaxEntries)).map (entryOf vndbCacheTTL)) :=
      cacheGet_of_absent _ _ _ (mapGet_of_not_mem hfreshcache)
    have hpost : ((vndbCachedPost ((done.drop (done.length - vndbCacheMaxEntries)).map
        (entryOf vndbCacheTTL)) p.1 p.2.2 (.ok p.2.1) p.2.2).2.1)
        = vndbStore ((done.drop (done.length - vndbCacheMaxEntries)).map (entryOf vndbCacheTTL))
          p.1 p.2.1 p.2.2 := by
      unfold vndbCachedPost
      rw [hget]
    rw [hpost]
    have hins : mapInsert ((done.drop (done.length - vndbCacheMaxEntries)).map
        (entryOf vndbCacheTTL)) p.1
        { data := p.2.1, expire := p.2.2 + vndbCacheTTL, added := p.2.2 }
        = ((done.drop (done.length - vndbCacheMaxEntries)) ++ [p]).map (entryOf vndbCacheTTL) := by
      rw [mapInsert_of_not_mem hfreshcache, List.map_append]
      rfl
    have hpr : pruneExpired
        (((done.drop (done.length - vndbCacheMaxEntries)) ++ [p]).map (entryOf vndbCacheTTL))
        p.2.2
        = ((done.drop (done.length - vndbCacheMaxEntries)) ++ [p]).map (entryOf vndbCacheTTL) := by
      apply pruneExpired_id
      intro q hq
      rcases List.mem_map.mp hq with ⟨d, hd, hdq⟩
      have hdmem : d ∈ done ++ p :: rest := hds_sub.subset hd
      have hpmem : p ∈ done ++ p :: rest := by simp
      have hw := hwin d hdmem p hpmem
      rw [← hdq]
      simp only [entryOf]
      omega
    have hlen_ds : (done.drop (done.length - vndbCacheMaxEntries) ++ [p]).length
        ≤ vndbCacheMaxEntries + 1 := by
      simp only [List.length_append, List.length_drop, List.length_cons, List.length_nil]
      omega
    have hev := vndbEvictOverflow_map_sorted
      (done.drop (done.length - vndbCacheMaxEntries) ++ [p]) vndbCacheTTL hnd_ds hpair_ds hlen_ds
    have hstore : vndbStore ((done.drop (done.length - vndbCacheMaxEntries)).map
        (entryOf vndbCacheTTL)) p.1 p.2.1 p.2.2
        = ((done ++ [p]).drop ((done ++ [p]).length - vndbCacheMaxEntries)).map
            (entryOf vndbCacheTTL) := by
      rw [vndbStore, hins, hpr, hev]
      rw [drop_insert_slide done p vndbCacheMaxEntries (by norm_num [vndbCacheMaxEntries])]
    rw [hstore]
    have hnd2 : (((done ++ [p]) ++ rest).map Prod.fst).Nodup := by
      rw [← hassoc]
      exact hnd
    have hpair2 : List.Pairwise (fun a b => a.2.2 < b.2.2) ((done ++ [p]) ++ rest) := by
      rw [← hassoc]
      exact hpair
    have hwin2 : ∀ a ∈ (done ++ [p]) ++ rest, ∀ b ∈ (done ++ [p]) ++ rest,
        b.2.2 < a.2.2 + vndbCacheTTL := by
      rw [← hassoc]
      exact hwin
    rw [vndbRunPosts_window rest (done ++ [p]) hnd2 hpair2 hwin2, ← hassoc]

/-- Claim C5: in both clients, whenever the cache holds more than the
capacity bound, overflow eviction removes entries oldest-inserted first —
every evicted entry's `added` timestamp is at most every kept entry's — and
stops exactly at the bound (the new size is `min` of the old size and the
cap); in particular, posting `cacheMaxEntries + 5` distinct unexpired
fingerprints (strictly increasing insertion times inside one TTL window)
leaves exactly `cacheMaxEntries` entries, the 5 oldest-inserted ones having
been evicted. -/
theorem cache_eviction_oldest_first :
    (∀ m : CacheMap, (m.map Prod.fst).Nodup →
      ((bgmEvictOverflow m).Sublist m
        ∧ (bgmEvictOverflow m).length = min m.length cacheMaxEntries
        ∧ ∀ p ∈ m, p ∉ bgmEvictOverflow m → ∀ q ∈ bgmEvictOverflow m, p.2.added ≤ q.2.added)
      ∧ ((vndbEvictOverflow m).Sublist m
        ∧ (vndbEvictOverflow m).length = min m.length vndbCacheMaxEntries
        ∧ ∀ p ∈ m, p ∉ vndbEvictOverflow m → ∀ q ∈ vndbEvictOverflow m, p.2.added ≤ q.2.added))
    ∧ (∀ ps : List (String × Payload × Int),
        (ps.map Prod.fst).Nodup →
        List.Pairwise (fun a b => a.2.2 < b.2.2) ps →
        (∀ a ∈ ps, ∀ b ∈ ps, b.2.2 < a.2.2 + cacheTTL) →
        ps.length = cacheMaxEntries + 5 →
        bgmRunPosts ps [] = (ps.drop 5).map (entryOf cacheTTL)
        ∧ (bgmRunPosts ps []).length = cacheMaxEntries
        ∧ vndbRunPosts ps [] = (ps.drop 5).map (entryOf vndbCacheTTL)
        ∧ (vndbRunPosts ps []).length = cacheMaxEntries) := by
  constructor
  · intro m hnd
    exact ⟨⟨bgmEvictLoop_sublist m.length m, bgmEvictLoop_length m.length m hnd le_rfl,
      bgmEvictLoop_oldest m.length m hnd⟩, vndbEvictOverflow_spec m hnd⟩
  · intro ps hnd hpair hwin hlen
    have hb := bgmRunPosts_window ps [] (by simpa using hnd) (by simpa using hpair)
      (by simpa using hwin)
    have hv := vndbRunPosts_window ps [] (by simpa using hnd) (by simpa using hpair)
      (by simpa using hwin)
    simp only [List.nil_append, List.length_nil, List.drop_nil, List.map_nil,
      Nat.zero_sub, List.drop_zero] at hb hv
    have hdrop5 : ps.length - cacheMaxEntries = 5 := by omega
    have hdrop5v : ps.length - vndbCacheMaxEntries = 5 := by
      have heq : vndbCacheMaxEntries = cacheMaxEntries := rfl
      rw [heq]
      omega
    rw [hdrop5] at hb
    rw [hdrop5v] at hv
    refine ⟨hb, ?_, hv, ?_⟩
    · rw [hb, List.length_map, List.length_drop]
      omega
    · rw [hv, List.length_map, List.length_drop]
      omega

/-- Witness for C5: the concrete capacity scenario — 805 fingerprints
`""`, `"a"`, `"aa"`, ... posted at times 0..804. -/
theorem cache_eviction_oldest_first_witness :
    (capacityScenario.map Prod.fst).Nodup
    ∧ List.Pairwise (fun a b => a.2.2 < b.2.2) capacityScenario
    ∧ (∀ a ∈ capacityScenario, ∀ b ∈ capacityScenario, b.2.2 < a.2.2 + cacheTTL)
    ∧ capacityScenario.length = cacheMaxEntries + 5
    ∧ bgmRunPosts capacityScenario [] = (capacityScenario.drop 5).map (entryOf cacheTTL)
    ∧ (bgmRunPosts capacityScenario []).length = cacheMaxEntries
    ∧ vndbRunPosts capacityScenario [] = (capacityScenario.drop 5).map (entryOf vndbCacheTTL)
    ∧ (vndbRunPosts capacityScenario []).length = cacheMaxEntries := by
  have hinj : Function.Injective (fun i : Nat => String.mk (List.replicate i 'a')) := by
    intro i j h
    have h2 : List.replicate i 'a' = List.replicate j 'a' := congrArg String.data h
    have h3 := congrArg List.length h2
    simpa using h3
  have hnd : (capacityScenario.map Prod.fst).Nodup := by
    rw [capacityScenario, List.map_map]
    exact List.Nodup.map hinj (List.nodup_range _)
  have hpair : List.Pairwise (fun a b => a.2.2 < b.2.2) capacityScenario := by
    rw [capacityScenario, List.pairwise_map]
    refine (List.pairwise_lt_range _).imp ?_
    intro a b h
    show (a : Int) < (b : Int)
    exact_mod_cast h
  have hwin : ∀ a ∈ capacityScenario, ∀ b ∈ capacityScenario, b.2.2 < a.2.2 + cacheTTL := by
    intro a ha b hb
    rw [capacityScenario] at ha hb
    rcases List.mem_map.mp ha with ⟨i, hi, hia⟩
    rcases List.mem_map.mp hb with ⟨j, hj, hjb⟩
    rw [List.mem_range] at hi hj
    rw [← hia, ← hjb]
    show (j : Int) < (i : Int) + cacheTTL
    simp only [cacheMaxEntries] at hi hj
    have hTTL : cacheTTL = 300000000000 := rfl
    rw [hTTL]
    omega
  have hlen : capacityScenario.length = cacheMaxEntries + 5 := by
    rw [capacityScenario, List.length_map, List.length_range]
  obtain ⟨h1, h2, h3, h4⟩ :=
    cache_eviction_oldest_first.2 capacityScenario hnd hpair hwin hlen
  exact ⟨hnd, hpair, hwin, hlen, h1, h2, h3, h4⟩

/-- Witness for C9 (amended): the stale cache at time 10 with a failing
upstream. -/
theorem cachedPost_error_no_insert_witness :
    bgmCachedPost staleCache "k" 10 (.error "boom") 11
        = (.error "boom", (cacheGet staleCache "k" 10).2, true)
    ∧ vndbCachedPost staleCache "k" 10 (.error "boom") 11
        = (.error "boom", (cacheGet staleCache "k" 10).2, true)
    ∧ mapGet (cacheGet staleCache "k" 10).2 "k" = none
    ∧ (∀ upstream2 now2 t2,
        (bgmCachedPost (cacheGet staleCache "k" 10).2 "k" now2 upstream2 t2).2.2 = true)
    ∧ (∀ upstream2 now2 t2,
        (vndbCachedPost (cacheGet staleCache "k" 10).2 "k" now2 upstream2 t2).2.2 = true) :=
  cachedPost_error_no_insert staleCache "k" 10 11 "boom" rfl

end OtakuChart
